import Mathlib

/-!
Verification of the CML wet/dry preprocessing pipeline and CNN classifier.

Shallow embedding of src/telcosense_classification/preprocess_utility.py and
src/telcosense_classification/module/cnn_telcorain_v11.py.

Modelling conventions:
- a pandas float column is a List (Option Rat): none models NaN (missing),
  some x models the finite float value x, with real-number arithmetic in place
  of IEEE floating point;
- a DataFrame with the columns the core uses (rsl_A, rsl_B, rain) is the
  structure CML below; row order models the integer index after reset_index;
- pandas reductions (mean, std, max, min) skip missing values, as pandas does
  with skipna defaulting to true; std and var use ddof = 1 (sample statistics);
- comparisons in which one operand is NaN evaluate to false, as in numpy;
  Series.where(cond) keeps a value where cond is true and nulls it otherwise;
- divisions that produce NaN or infinity in float (x/0, 0/0, x/NaN) are
  modelled as missing (none); every claim settled here avoids depending on the
  distinction between NaN and infinity.
-/

/-- Data model: the per-link table consumed by the preprocessing core, with the
two RSL channels and the rain-rate reference column. -/
structure CML where
  rsl_A : List (Option ℚ)
  rsl_B : List (Option ℚ)
  rain  : List (Option ℚ)
deriving DecidableEq, Repr

/-- Known (non-missing) values of a column, in order: what pandas skipna
reductions operate on. -/
def knownQ (xs : List (Option ℚ)) : List ℚ := xs.filterMap id

/-- Mean of the known values of a column (pandas Series.mean). -/
def meanK (xs : List (Option ℚ)) : ℚ := (knownQ xs).sum / (knownQ xs).length

/-- Sample variance (ddof = 1) of the known values of a column: the square of
pandas Series.std.  Only meaningful when at least two values are known. -/
def varK (xs : List (Option ℚ)) : ℚ :=
  ((knownQ xs).map (fun x => (x - meanK xs) ^ 2)).sum / (((knownQ xs).length - 1 : ℕ) : ℚ)

/-- Maximum of the known values of a column (pandas Series.max, skipna);
none when every value is missing (pandas returns NaN). -/
def maxKnown (xs : List (Option ℚ)) : Option ℚ :=
  match knownQ xs with
  | [] => none
  | h :: t => some (t.foldl max h)

/-- Minimum of the known values of a column (pandas Series.min, skipna). -/
def minKnown (xs : List (Option ℚ)) : Option ℚ :=
  match knownQ xs with
  | [] => none
  | h :: t => some (t.foldl min h)

/-- Index and value of the last known sample strictly before position i,
scanning downward; none when every earlier sample is missing. -/
def prevKnown (xs : List (Option ℚ)) : ℕ → Option (ℕ × ℚ)
  | 0 => none
  | j + 1 =>
    match xs.getD j none with
    | some a => some (j, a)
    | none => prevKnown xs j

/-- First known sample of a list, together with its offset. -/
def firstKnown : List (Option ℚ) → Option (ℕ × ℚ)
  | [] => none
  | none :: t => (firstKnown t).map (fun p => (p.1 + 1, p.2))
  | some a :: _ => some (0, a)

/-- Index and value of the first known sample strictly after position i. -/
def nextKnown (xs : List (Option ℚ)) (i : ℕ) : Option (ℕ × ℚ) :=
  (firstKnown (xs.drop (i + 1))).map (fun p => (i + 1 + p.1, p.2))

/-- Value of pandas Series.interpolate(method=linear) at position i, with the
default forward limit direction and an optional limit on the gap filled:
a known sample keeps its value; a missing sample with no earlier known sample
stays missing; otherwise it is filled linearly toward the next known sample,
or padded with the last known value when no later sample is known, provided
its distance from the last known sample does not exceed the limit.  The limit
test reads lim.getD (i - p): with no limit it degenerates to a true
comparison, with limit g it is the bound i - p <= g. -/
def interpFill (lim : Option ℕ) (xs : List (Option ℚ)) (i : ℕ) : Option ℚ :=
  match xs.getD i none with
  | some x => some x
  | none =>
    match prevKnown xs i with
    | none => none
    | some (p, a) =>
      if i - p ≤ lim.getD (i - p) then
        match nextKnown xs i with
        | none => some a
        | some (q, b) => some (a + (b - a) * ((i - p : ℕ) : ℚ) / ((q - p : ℕ) : ℚ))
      else none

/-- Linear interpolation of a whole column. -/
def interpCol (lim : Option ℕ) (xs : List (Option ℚ)) : List (Option ℚ) :=
  (List.range xs.length).map (interpFill lim xs)

theorem interpCol_length (lim : Option ℕ) (xs : List (Option ℚ)) :
    (interpCol lim xs).length = xs.length := by
  simp [interpCol]

theorem interpCol_getD (lim : Option ℕ) (xs : List (Option ℚ)) (i : ℕ)
    (hi : i < xs.length) :
    (interpCol lim xs).getD i none = interpFill lim xs i := by
  simp [interpCol, List.getD, List.getElem?_map, List.getElem?_range hi]

theorem prevKnown_eq_none_iff (xs : List (Option ℚ)) (i : ℕ) :
    prevKnown xs i = none ↔ ∀ j < i, xs.getD j none = none := by
  induction i with
  | zero => simp [prevKnown]
  | succ j ih =>
    constructor
    · intro h k hk
      rw [prevKnown] at h
      rcases hx : xs.getD j none with _ | a
      · rw [hx] at h
        rcases Nat.lt_succ_iff_lt_or_eq.mp hk with hk' | rfl
        · exact (ih.mp h) k hk'
        · exact hx
      · rw [hx] at h; exact absurd h (by simp)
    · intro h
      rw [prevKnown]
      have hj : xs.getD j none = none := h j (Nat.lt_succ_self j)
      rw [hj]
      exact ih.mpr (fun k hk => h k (Nat.lt_succ_of_lt hk))

theorem interpFill_of_some (lim : Option ℕ) (xs : List (Option ℚ)) (i : ℕ) (x : ℚ)
    (hx : xs.getD i none = some x) : interpFill lim xs i = some x := by
  unfold interpFill; rw [hx]

theorem getD_none_of_allNone (xs : List (Option ℚ))
    (h : ∀ o ∈ xs, o = none) (j : ℕ) : xs.getD j none = none := by
  rcases Nat.lt_or_ge j xs.length with hjl | hjl
  · rw [List.getD_eq_getElem?_getD, List.getElem?_eq_getElem hjl]
    simpa using h _ (List.getElem_mem hjl)
  · rw [List.getD_eq_getElem?_getD, List.getElem?_eq_none hjl]; rfl

theorem interpFill_eq_none_iff (xs : List (Option ℚ)) (i : ℕ) :
    interpFill none xs i = none ↔ ∀ j ≤ i, xs.getD j none = none := by
  constructor
  · intro h j hj
    unfold interpFill at h
    rcases hx : xs.getD i none with _ | x
    · rw [hx] at h
      rcases Nat.lt_or_ge j i with hji | hji
      · rcases hp : prevKnown xs i with _ | ⟨p, a⟩
        · exact (prevKnown_eq_none_iff xs i).mp hp j hji
        · rw [hp] at h
          simp only [Option.getD_none, le_refl, if_pos] at h
          rcases hn : nextKnown xs i with _ | q <;> rw [hn] at h <;> simp at h
      · have : j = i := Nat.le_antisymm hj hji
        rw [this]; exact hx
    · rw [hx] at h; simp at h
  · intro h
    unfold interpFill
    rw [h i (Nat.le_refl i),
      (prevKnown_eq_none_iff xs i).mpr (fun j hj => h j (Nat.le_of_lt hj))]

theorem interpCol_id_of_noNone (lim : Option ℕ) (xs : List (Option ℚ))
    (h : ∀ o ∈ xs, o ≠ none) : interpCol lim xs = xs := by
  apply List.ext_getElem (interpCol_length lim xs)
  intro i hi hix
  have hmem : xs[i] ∈ xs := List.getElem_mem hix
  rcases ho : xs[i] with _ | x
  · exact absurd ho (h _ hmem)
  have hgd : xs.getD i none = some x := by
    rw [List.getD_eq_getElem?_getD, List.getElem?_eq_getElem hix, ho]; rfl
  have : (interpCol lim xs).getD i none = some x := by
    rw [interpCol_getD lim xs i hix, interpFill_of_some lim xs i x hgd]
  rw [List.getD_eq_getElem?_getD, List.getElem?_eq_getElem hi] at this
  simpa using this

theorem interpCol_id_of_allNone (lim : Option ℕ) (xs : List (Option ℚ))
    (h : ∀ o ∈ xs, o = none) : interpCol lim xs = xs := by
  apply List.ext_getElem (interpCol_length lim xs)
  intro i hi hix
  have hgd : xs.getD i none = none := by
    rw [List.getD_eq_getElem?_getD, List.getElem?_eq_getElem hix]
    simpa using h _ (List.getElem_mem hix)
  have hfill : interpFill lim xs i = none := by
    unfold interpFill
    rw [hgd, (prevKnown_eq_none_iff xs i).mpr (fun j _ => getD_none_of_allNone xs h j)]
  have : (interpCol lim xs).getD i none = none := by
    rw [interpCol_getD lim xs i hix, hfill]
  rw [List.getD_eq_getElem?_getD, List.getElem?_eq_getElem hi] at this
  have hx : xs[i] = none := by
    simpa using h _ (List.getElem_mem hix)
  simpa [hx] using this

/-- Generic index-wise rewrite of a column: the shape of every in-place
fancy-indexed or slice assignment the source performs. -/
def mapIdxD (f : ℕ → Option ℚ → Option ℚ) (xs : List (Option ℚ)) : List (Option ℚ) :=
  (List.range xs.length).map (fun i => f i (xs.getD i none))

theorem mapIdxD_length (f : ℕ → Option ℚ → Option ℚ) (xs : List (Option ℚ)) :
    (mapIdxD f xs).length = xs.length := by simp [mapIdxD]

theorem mapIdxD_getD (f : ℕ → Option ℚ → Option ℚ) (xs : List (Option ℚ)) (i : ℕ)
    (hi : i < xs.length) :
    (mapIdxD f xs).getD i none = f i (xs.getD i none) := by
  simp [mapIdxD, List.getD, List.getElem?_map, List.getElem?_range hi]

theorem getD_map_of_lt (f : Option ℚ → Option ℚ) (xs : List (Option ℚ)) (i : ℕ)
    (hi : i < xs.length) :
    (xs.map f).getD i none = f (xs.getD i none) := by
  rw [List.getD_eq_getElem?_getD, List.getElem?_map, List.getElem?_eq_getElem hi,
    List.getD_eq_getElem?_getD, List.getElem?_eq_getElem hi]
  rfl

/-- Model of np.roll(a, -1): every element moves one slot to the left and the
first element wraps around to the end. -/
def rollL {α : Type} (l : List α) : List α := l.drop 1 ++ l.take 1

/-- Model of np.roll(a, 1): every element moves one slot to the right and the
last element wraps around to the front. -/
def rollR {α : Type} (l : List α) : List α := l.drop (l.length - 1) ++ l.take (l.length - 1)

/-- Nonzero mask of the rain column, as the source computes cml.rain != 0:
in pandas a missing value compares not-equal to zero, so NaN maps to true. -/
def nzMask (rain : List (Option ℚ)) : List Bool :=
  rain.map (fun o => decide (o ≠ some (0 : ℚ)))

/-- Selection mask of the single-zero suppression stage of ref_preprocess,
exactly as the source builds it: shifted copies of the nonzero mask via
np.roll, with the wraparound guards the source writes (the last slot of the
left-shifted mask and slot 1 - not slot 0 - of both right-shifted masks are
forced to false), combined as L and (R or RR) and not-mask. -/
def singleZeroSel (rain : List (Option ℚ)) : List Bool :=
  let mask := nzMask rain
  let mL := (rollL mask).set (mask.length - 1) false
  let mR := (rollR mask).set 1 false
  let mRR := (rollR mR).set 1 false
  (List.range rain.length).map (fun i =>
    mL.getD i false && (mR.getD i false || mRR.getD i false) && !(mask.getD i false))

/-- Single-zero suppression: the samples the selection mask picks are
overwritten with the placeholder 0.1 (source line cml.rain[single_zeros] = 0.1). -/
def applySingleZeros (rain : List (Option ℚ)) : List (Option ℚ) :=
  mapIdxD (fun i o => if (singleZeroSel rain).getD i false then some (1 / 10) else o) rain

/-- Indices where the rain values transition from nonzero to zero, as the
source computes np.where(nonzero_mask2 and not shifted_mask): the shifted mask
is the left-rolled nonzero mask with its last slot forced to false, so the
last sample, when nonzero, always counts as a transition end. -/
def transitionIdx (rain : List (Option ℚ)) : List ℕ :=
  let mask := nzMask rain
  let sh := (rollL mask).set (mask.length - 1) false
  (List.range rain.length).filter (fun i => mask.getD i false && !(sh.getD i false))

/-- Zero out the slice [max(0, idx - (u - 2)), idx] of the rain column, the
in-place slice assignment of the leakage-compensation loop; truncated natural
subtraction performs the clamp max(0, idx - (u - 2)) of the source. -/
def zeroOutRange (u : ℕ) (rain : List (Option ℚ)) (idx : ℕ) : List (Option ℚ) :=
  mapIdxD (fun i o => if idx - (u - 2) ≤ i ∧ i ≤ idx then some 0 else o) rain

/-- Leakage-compensation loop of ref_preprocess: the transition indices are
computed once, then each slice is zeroed in turn. -/
def compLinInterp (u : ℕ) (rain : List (Option ℚ)) : List (Option ℚ) :=
  (transitionIdx rain).foldl (zeroOutRange u) rain

/-- Output table of ref_preprocess: the input columns plus the derived
boolean wet/dry reference flag column ref_wd. -/
structure CMLW where
  rsl_A : List (Option ℚ)
  rsl_B : List (Option ℚ)
  rain  : List (Option ℚ)
  ref_wd : List Bool
deriving DecidableEq, Repr

/-- Embedding of ref_preprocess (preprocess_utility.py lines 225-277): optional
single-zero suppression, optional upsampling-leakage compensation (only when
comp_lin_interp is set and upsampled_n_times is at least 2), then the flag
derivation cml.rain.where(cml.rain == 0, True).astype(bool), which labels an
index wet exactly when its rain value is not the number zero (missing values
compare not-equal to zero and so map to true). -/
def ref_preprocess (comp_lin_interp : Bool) (upsampled_n_times : ℕ)
    (supress_single_zeros : Bool) (t : CML) : CMLW :=
  let r1 := if supress_single_zeros then applySingleZeros t.rain else t.rain
  let r2 := if comp_lin_interp && decide (2 ≤ upsampled_n_times)
    then compLinInterp upsampled_n_times r1 else r1
  { rsl_A := t.rsl_A, rsl_B := t.rsl_B, rain := r2,
    ref_wd := r2.map (fun o => decide (o ≠ some (0 : ℚ))) }

theorem getD_map_lt {α β : Type} (f : α → β) (xs : List α) (i : ℕ) (d : α) (e : β)
    (hi : i < xs.length) : (xs.map f).getD i e = f (xs.getD i d) := by
  rw [List.getD_eq_getElem?_getD, List.getElem?_map, List.getElem?_eq_getElem hi,
    List.getD_eq_getElem?_getD, List.getElem?_eq_getElem hi]
  rfl

theorem rollL_length {α : Type} (l : List α) : (rollL l).length = l.length := by
  simp [rollL]
  omega

theorem shiftedL_getD (m : List Bool) (i : ℕ) (hi : i < m.length) :
    ((rollL m).set (m.length - 1) false).getD i false =
      if i + 1 = m.length then false else m.getD (i + 1) false := by
  rcases Nat.eq_or_lt_of_le (Nat.succ_le_of_lt hi) with he | hlt
  · rw [if_pos he]
    have hi' : m.length - 1 = i := by omega
    rw [hi', List.getD_eq_getElem?_getD,
      List.getElem?_set_eq_of_lt false (by rw [rollL_length]; exact hi)]
    rfl
  · rw [if_neg (by omega)]
    rw [List.getD_eq_getElem?_getD, List.getElem?_set_ne (by omega)]
    have hdrop : i < (m.drop 1).length := by simp; omega
    rw [rollL, List.getElem?_append_left hdrop, List.getElem?_drop,
      List.getD_eq_getElem?_getD, Nat.add_comm]

theorem nzMask_getD (rain : List (Option ℚ)) (i : ℕ) (hi : i < rain.length) :
    (nzMask rain).getD i false = decide (rain.getD i none ≠ some 0) :=
  getD_map_lt _ rain i none false hi

theorem nzMask_length (rain : List (Option ℚ)) : (nzMask rain).length = rain.length := by
  simp [nzMask]

theorem transitionIdx_mem (rain : List (Option ℚ)) (idx : ℕ) :
    idx ∈ transitionIdx rain ↔ idx < rain.length ∧ rain.getD idx none ≠ some 0 ∧
      (idx + 1 = rain.length ∨ rain.getD (idx + 1) none = some 0) := by
  unfold transitionIdx
  rw [List.mem_filter, List.mem_range]
  constructor
  · rintro ⟨hlt, hp⟩
    refine ⟨hlt, ?_, ?_⟩
    · have := (Bool.and_eq_true _ _).mp hp |>.1
      rw [nzMask_getD rain idx hlt] at this
      exact of_decide_eq_true this
    · have hsh := (Bool.and_eq_true _ _).mp hp |>.2
      rw [Bool.not_eq_eq_eq_not, Bool.not_true] at hsh
      have hrw := shiftedL_getD (nzMask rain) idx (by rw [nzMask_length]; exact hlt)
      rw [hrw, nzMask_length] at hsh
      by_cases he : idx + 1 = rain.length
      · left; exact he
      · right
        rw [if_neg he] at hsh
        by_cases h2 : idx + 1 < rain.length
        · rw [nzMask_getD rain _ h2] at hsh
          simpa using hsh
        · omega
  · rintro ⟨hlt, hnz, hnext⟩
    refine ⟨hlt, ?_⟩
    rw [Bool.and_eq_true]
    constructor
    · rw [nzMask_getD rain idx hlt]; exact decide_eq_true hnz
    · rw [Bool.not_eq_eq_eq_not, Bool.not_true]
      have hrw := shiftedL_getD (nzMask rain) idx (by rw [nzMask_length]; exact hlt)
      rw [hrw, nzMask_length]
      rcases hnext with he | hz
      · rw [if_pos he]
      · by_cases he : idx + 1 = rain.length
        · rw [if_pos he]
        · rw [if_neg he]
          have h2 : idx + 1 < rain.length := by omega
          rw [nzMask_getD rain _ h2, hz]
          simp

theorem zeroOutRange_getD (u : ℕ) (rain : List (Option ℚ)) (idx i : ℕ)
    (hi : i < rain.length) :
    (zeroOutRange u rain idx).getD i none =
      if idx - (u - 2) ≤ i ∧ i ≤ idx then some 0 else rain.getD i none := by
  rw [zeroOutRange, mapIdxD_getD _ rain i hi]

theorem foldl_zeroOut_length (u : ℕ) (L : List ℕ) (rain : List (Option ℚ)) :
    (L.foldl (zeroOutRange u) rain).length = rain.length := by
  induction L generalizing rain with
  | nil => rfl
  | cons a L ih => rw [List.foldl_cons, ih, zeroOutRange, mapIdxD_length]

theorem foldl_zeroOut_getD (u : ℕ) (L : List ℕ) (rain : List (Option ℚ)) (i : ℕ)
    (hi : i < rain.length) :
    (L.foldl (zeroOutRange u) rain).getD i none =
      if ∃ idx ∈ L, idx - (u - 2) ≤ i ∧ i ≤ idx then some 0
      else rain.getD i none := by
  induction L generalizing rain with
  | nil => simp
  | cons a L ih =>
    rw [List.foldl_cons,
      ih (zeroOutRange u rain a) (by rw [zeroOutRange, mapIdxD_length]; exact hi),
      zeroOutRange_getD u rain a i hi]
    by_cases hcov : ∃ idx ∈ L, idx - (u - 2) ≤ i ∧ i ≤ idx
    · rw [if_pos hcov, if_pos]
      exact ⟨hcov.choose, List.mem_cons_of_mem a hcov.choose_spec.1, hcov.choose_spec.2⟩
    · rw [if_neg hcov]
      by_cases ha : a - (u - 2) ≤ i ∧ i ≤ a
      · rw [if_pos ha, if_pos ⟨a, List.mem_cons_self a L, ha⟩]
      · rw [if_neg ha, if_neg]
        rintro ⟨idx, hmem, hr⟩
        rcases List.mem_cons.mp hmem with rfl | hmem'
        · exact ha hr
        · exact hcov ⟨idx, hmem', hr⟩

theorem singleZeroSel_getD (rain : List (Option ℚ)) (i : ℕ) (hi : i < rain.length) :
    (singleZeroSel rain).getD i false =
      (((rollL (nzMask rain)).set ((nzMask rain).length - 1) false).getD i false &&
        (((rollR (nzMask rain)).set 1 false).getD i false ||
          ((rollR ((rollR (nzMask rain)).set 1 false)).set 1 false).getD i false) &&
        !((nzMask rain).getD i false)) := by
  rw [singleZeroSel, List.getD_eq_getElem?_getD, List.getElem?_map, List.getElem?_range hi]
  rfl

theorem applySingleZeros_length (rain : List (Option ℚ)) :
    (applySingleZeros rain).length = rain.length := by
  rw [applySingleZeros, mapIdxD_length]

theorem applySingleZeros_getD_none (rain : List (Option ℚ)) (i : ℕ)
    (hi : i < rain.length) (hnan : rain.getD i none = none) :
    (applySingleZeros rain).getD i none = none := by
  rw [applySingleZeros, mapIdxD_getD _ rain i hi, singleZeroSel_getD rain i hi,
    nzMask_getD rain i hi, hnan]
  simp

/-- C4 amended: with comp_lin_interp set and upsampled_n_times at least 2,
ref_preprocess zeroes, for each transition index idx (a sample whose rain
value is nonzero followed by a zero sample or by the end of the series), the
slice from max(0, idx - (upsampled_n_times - 2)) through idx inclusive, that
is the transition sample itself and the upsampled_n_times - 2 samples before
it; samples outside every such slice keep their values, and with
upsampled_n_times below 2 the stage does not run at all. -/
theorem C4_leakage_comp_amended (u : ℕ) (t : CML) (hu : 2 ≤ u) :
    (∀ i, i < t.rain.length →
      (ref_preprocess true u false t).rain.getD i none =
        (if ∃ idx ∈ transitionIdx t.rain, idx - (u - 2) ≤ i ∧ i ≤ idx then some 0
         else t.rain.getD i none)) ∧
    (∀ idx, idx ∈ transitionIdx t.rain ↔ idx < t.rain.length ∧
      t.rain.getD idx none ≠ some 0 ∧
      (idx + 1 = t.rain.length ∨ t.rain.getD (idx + 1) none = some 0)) ∧
    (∀ v : ℕ, v < 2 → (ref_preprocess true v false t).rain = t.rain) := by
  refine ⟨?_, transitionIdx_mem t.rain, ?_⟩
  · intro i hi
    have hcond : (true && decide (2 ≤ u)) = true := by simp [hu]
    simp only [ref_preprocess, if_neg (Bool.false_ne_true), hcond, if_pos, Bool.false_eq_true,
      if_false, if_true]
    exact foldl_zeroOut_getD u (transitionIdx t.rain) t.rain i hi
  · intro v hv
    have hcond : (true && decide (2 ≤ v)) = false := by simp; omega
    simp [ref_preprocess, hcond]

/-- C4 counterexample: for rain = [5,5,5,0] with upsampled_n_times = 3 the only
transition from nonzero to zero is at index 2, and the claim predicts that
exactly the last 3 - 2 = 1 samples before it are zeroed, so index 1 keeps its
value 5; the code zeroes the slice [idx - (u-2), idx] = [1, 2], that is
upsampled_n_times - 1 samples including the transition sample itself, giving
[5, 0, 0, 0]. -/
theorem C4_cex_off_by_one :
    (ref_preprocess true 3 false
      { rsl_A := [], rsl_B := [], rain := [some 5, some 5, some 5, some 0] }).rain
      = [some 5, some 0, some 0, some 0] := by decide

theorem C4_leakage_comp_amended_witness :
    (2:ℕ) ≤ 2 ∧ (0:ℕ) < ([some (5:ℚ), some 0].length) ∧
    (ref_preprocess true 2 false
      { rsl_A := [], rsl_B := [], rain := [some 5, some 0] }).rain.getD 0 none = some 0 := by
  refine ⟨by decide, by decide, ?_⟩
  have h := (C4_leakage_comp_amended 2
    { rsl_A := [], rsl_B := [], rain := [some 5, some 0] } (by decide)).1 0 (by decide)
  rw [h, if_pos]
  exact ⟨0, by decide, by decide⟩

/-- C3: the code contradicts the claimed single-zero rule.  For the input
rain = [5, 0, 5] the zero at index 1 is directly flanked by nonzero samples,
so the claim requires it to be replaced with 0.1 and ref_wd to be all-true;
the code forces slot 1 (instead of slot 0) of the right-shifted mask to false,
so index 1 can never be selected and ref_wd stays [T, F, T].  The claimed
example [0,0,0,5,0,5,0,0], whose single zero sits at index 4, is reproduced
correctly. -/
theorem C3_single_zeros_eval :
    (ref_preprocess false 0 true
      { rsl_A := [], rsl_B := [], rain := [some 5, some 0, some 5] }).rain
      = [some 5, some 0, some 5] ∧
    (ref_preprocess false 0 true
      { rsl_A := [], rsl_B := [], rain := [some 5, some 0, some 5] }).ref_wd
      = [true, false, true] ∧
    (ref_preprocess false 0 true { rsl_A := [], rsl_B := [], rain :=
        [some 0, some 0, some 0, some 5, some 0, some 5, some 0, some 0] }).ref_wd
      = [false, false, false, true, true, true, false, false] :=
  ⟨by decide, by decide, by
    norm_num [ref_preprocess, applySingleZeros, singleZeroSel, nzMask, rollL, rollR,
      mapIdxD, List.range_succ]⟩

/-- C10 amended: when the leakage-compensation stage does not run
(comp_lin_interp unset or upsampled_n_times below 2), every index whose rain
value is missing gets ref_wd = true: a missing value compares not-equal to
zero, and the single-zero stage never touches missing samples.  (With
comp_lin_interp set and upsampled_n_times at least 2 a missing sample can be
overwritten with 0 and labeled dry, as the counterexample shows.) -/
theorem C10_missing_rain_wet_amended (clin : Bool) (u : ℕ) (sz : Bool) (t : CML)
    (hcfg : clin = false ∨ u < 2) (i : ℕ) (hi : i < t.rain.length)
    (hnan : t.rain.getD i none = none) :
    (ref_preprocess clin u sz t).ref_wd.getD i false = true := by
  have hr1 : ∀ r1 : List (Option ℚ),
      r1 = (if sz then applySingleZeros t.rain else t.rain) →
      r1.length = t.rain.length ∧ r1.getD i none = none := by
    intro r1 hr
    cases sz with
    | false => rw [hr]; exact ⟨rfl, hnan⟩
    | true =>
      rw [hr]
      simp only [if_true]
      exact ⟨applySingleZeros_length t.rain, applySingleZeros_getD_none t.rain i hi hnan⟩
  have hcond : (clin && decide (2 ≤ u)) = false := by
    rcases hcfg with rfl | hu
    · rfl
    · simp; omega
  rcases hr1 _ rfl with ⟨hlen, hval⟩
  simp only [ref_preprocess, hcond, Bool.false_eq_true, if_false]
  rw [getD_map_lt _ _ i none false (by rw [hlen]; exact hi), hval]
  simp

theorem C10_missing_rain_wet_amended_witness :
    ((false = false ∨ (0:ℕ) < 2) ∧ (0:ℕ) < ([(none : Option ℚ)].length) ∧
      ([(none : Option ℚ)].getD 0 none = none) ∧
      (ref_preprocess false 0 false
        { rsl_A := [], rsl_B := [], rain := [none] }).ref_wd.getD 0 false = true) :=
  ⟨Or.inl rfl, by decide, by decide,
    C10_missing_rain_wet_amended false 0 false
      { rsl_A := [], rsl_B := [], rain := [none] } (Or.inl rfl) 0 (by decide) (by decide)⟩

/-- C10 counterexample: with comp_lin_interp set and upsampled_n_times = 2,
the missing sample at index 0 of rain = [NaN, 0] counts as nonzero, is taken
for a transition end, gets overwritten with 0 by the compensation slice, and
is labeled dry: ref_wd = [false, false], not true at the missing index. -/
theorem C10_cex_missing_labeled_dry :
    (ref_preprocess true 2 false
      { rsl_A := [], rsl_B := [], rain := [none, some 0] }).ref_wd = [false, false] ∧
    ([none, some (0:ℚ)].getD 0 none = none) :=
  ⟨by decide, by decide⟩

/-- Decidable rational test for the comparison a < t * sqrt v (intended for
0 <= v), by sign analysis and squaring; used to embed the float comparisons
of the Z and rolling-std stages, whose one side is a standard deviation,
without leaving the rationals. -/
def ltSqrt (a t v : ℚ) : Prop :=
  if 0 ≤ t then a < 0 ∨ (0 ≤ a ∧ a ^ 2 < t ^ 2 * v)
  else a < 0 ∧ t ^ 2 * v < a ^ 2

instance ltSqrt.decidable (a t v : ℚ) : Decidable (ltSqrt a t v) := by
  unfold ltSqrt; infer_instance

theorem ltSqrt_iff (a t v : ℚ) (hv : 0 ≤ v) :
    ltSqrt a t v ↔ (a : ℝ) < (t : ℝ) * Real.sqrt (v : ℝ) := by
  have hv' : (0:ℝ) ≤ (v:ℝ) := by exact_mod_cast hv
  have hs : Real.sqrt (v:ℝ) ^ 2 = (v:ℝ) := Real.sq_sqrt hv'
  have hs0 : 0 ≤ Real.sqrt (v:ℝ) := Real.sqrt_nonneg _
  unfold ltSqrt
  by_cases ht : 0 ≤ t
  · rw [if_pos ht]
    have ht' : (0:ℝ) ≤ (t:ℝ) := by exact_mod_cast ht
    have hmul : (t : ℝ) * Real.sqrt (v : ℝ) = Real.sqrt ((t:ℝ)^2 * (v:ℝ)) := by
      rw [Real.sqrt_mul (sq_nonneg _), Real.sqrt_sq ht']
    rw [hmul]
    constructor
    · rintro (ha | ⟨ha, hlt⟩)
      · calc (a:ℝ) < 0 := by exact_mod_cast ha
          _ ≤ _ := Real.sqrt_nonneg _
      · exact (Real.lt_sqrt (by exact_mod_cast ha)).mpr (by exact_mod_cast hlt)
    · intro h
      by_cases ha : a < 0
      · exact Or.inl ha
      · push_neg at ha
        refine Or.inr ⟨ha, ?_⟩
        have := (Real.lt_sqrt (by exact_mod_cast ha)).mp h
        exact_mod_cast this
  · rw [if_neg ht]
    push_neg at ht
    have ht' : (t:ℝ) < 0 := by exact_mod_cast ht
    have hmul : -((t : ℝ) * Real.sqrt (v : ℝ)) = Real.sqrt ((t:ℝ)^2 * (v:ℝ)) := by
      rw [Real.sqrt_mul (sq_nonneg _), Real.sqrt_sq_eq_abs, abs_of_neg ht', neg_mul]
    constructor
    · rintro ⟨ha, hlt⟩
      have ha' : (a:ℝ) < 0 := by exact_mod_cast ha
      have h2 : Real.sqrt ((t:ℝ)^2 * (v:ℝ)) < -(a:ℝ) := by
        refine (Real.sqrt_lt' (by linarith)).mpr ?_
        have : ((t:ℝ))^2 * (v:ℝ) < ((a:ℝ))^2 := by exact_mod_cast hlt
        calc ((t:ℝ))^2 * (v:ℝ) < ((a:ℝ))^2 := this
          _ = (-(a:ℝ))^2 := by ring
      rw [← hmul] at h2
      linarith
    · intro h
      have hts : (t:ℝ) * Real.sqrt (v:ℝ) ≤ 0 := mul_nonpos_of_nonpos_of_nonneg (le_of_lt ht') hs0
      have ha' : (a:ℝ) < 0 := lt_of_lt_of_le h hts
      refine ⟨by exact_mod_cast ha', ?_⟩
      have h2 : Real.sqrt ((t:ℝ)^2 * (v:ℝ)) < -(a:ℝ) := by rw [← hmul]; linarith
      have h3 := (Real.sqrt_lt' (by linarith)).mp h2
      have : ((t:ℝ))^2 * (v:ℝ) < ((a:ℝ))^2 := by
        calc ((t:ℝ))^2 * (v:ℝ) < (-(a:ℝ))^2 := h3
          _ = ((a:ℝ))^2 := by ring
      exact_mod_cast this

theorem varK_nonneg (xs : List (Option ℚ)) : 0 ≤ varK xs := by
  unfold varK
  apply div_nonneg
  · apply List.sum_nonneg
    intro y hy
    rcases List.mem_map.mp hy with ⟨x, _, rfl⟩
    positivity
  · positivity

/-- Double where of the Z stage (preprocess_utility.py lines 169-172): the
Z-scores z = (x - mean)/std are computed once from the whole channel, then
the channel keeps a sample exactly where z < z_threshold and, in a second
where, z > -3.0.  When fewer than two values are known or the variance is
zero, the float std is NaN or 0 and every z is NaN, both conditions evaluate
false, and every sample is nulled.  Otherwise std = sqrt(varK) > 0 and the
two conditions are the rational sqrt-free tests
x - mean < z_threshold * std and -(x - mean) < 3 * std. -/
def zWhere (z_threshold : ℚ) (xs : List (Option ℚ)) : List (Option ℚ) :=
  if (knownQ xs).length < 2 ∨ varK xs = 0 then xs.map (fun _ => none)
  else xs.map (fun o => o.bind (fun x =>
    if ltSqrt (x - meanK xs) z_threshold (varK xs) ∧ ltSqrt (-(x - meanK xs)) 3 (varK xs)
    then some x else none))

/-- Embedding of cml_suppress_extremes_z (preprocess_utility.py lines
153-176): the double where on each RSL channel, then the frame-wide linear
interpolation of all columns. -/
def cml_suppress_extremes_z (z_threshold : ℚ) (t : CML) : CML :=
  { rsl_A := interpCol none (zWhere z_threshold t.rsl_A),
    rsl_B := interpCol none (zWhere z_threshold t.rsl_B),
    rain := interpCol none t.rain }

theorem zWhere_length (thr : ℚ) (xs : List (Option ℚ)) :
    (zWhere thr xs).length = xs.length := by
  unfold zWhere
  split <;> simp

theorem zWhere_getD (thr : ℚ) (xs : List (Option ℚ))
    (hn : ¬((knownQ xs).length < 2 ∨ varK xs = 0)) (i : ℕ) (hi : i < xs.length) :
    (zWhere thr xs).getD i none = (xs.getD i none).bind (fun x =>
      if ltSqrt (x - meanK xs) thr (varK xs) ∧ ltSqrt (-(x - meanK xs)) 3 (varK xs)
      then some x else none) := by
  unfold zWhere
  rw [if_neg hn]
  exact getD_map_lt _ xs i none none hi

/-- C2 amended: in cml_suppress_extremes_z, for a channel with at least two
known values and nonzero variance, a known sample is nulled by the double
where exactly when its Z-score Z = (x - mean)/std over the whole channel
satisfies Z >= z_threshold or Z <= -3.0; samples with -3.0 < Z < z_threshold
pass through to the output unchanged; a nulled sample is replaced by the
final linear interpolation exactly when some sample at or before its position
survived, so nulled samples before the first surviving sample stay missing
(pandas interpolate fills forward only). -/
theorem C2_z_suppress_amended (thr : ℚ) (xs : List (Option ℚ))
    (hn : 2 ≤ (knownQ xs).length) (hv : varK xs ≠ 0) :
    (∀ t : CML,
      (cml_suppress_extremes_z thr t).rsl_A = interpCol none (zWhere thr t.rsl_A) ∧
      (cml_suppress_extremes_z thr t).rsl_B = interpCol none (zWhere thr t.rsl_B)) ∧
    (∀ i x, i < xs.length → xs.getD i none = some x →
      ((zWhere thr xs).getD i none = none ↔
        (thr : ℝ) ≤ ((x : ℝ) - (meanK xs : ℝ)) / Real.sqrt ((varK xs : ℝ)) ∨
        ((x : ℝ) - (meanK xs : ℝ)) / Real.sqrt ((varK xs : ℝ)) ≤ -3)) ∧
    (∀ i x, i < xs.length → (zWhere thr xs).getD i none = some x →
      (interpCol none (zWhere thr xs)).getD i none = some x) ∧
    (∀ i, i < xs.length →
      ((interpCol none (zWhere thr xs)).getD i none = none ↔
        ∀ j, j ≤ i → (zWhere thr xs).getD j none = none)) := by
  have hcase : ¬((knownQ xs).length < 2 ∨ varK xs = 0) := by
    push_neg
    exact ⟨by omega, hv⟩
  have hvpos : 0 < varK xs := lt_of_le_of_ne (varK_nonneg xs) (Ne.symm hv)
  have hvr : (0:ℝ) < (varK xs : ℝ) := by exact_mod_cast hvpos
  have hs : 0 < Real.sqrt ((varK xs : ℝ)) := Real.sqrt_pos.mpr hvr
  refine ⟨fun t => ⟨rfl, rfl⟩, ?_, ?_, ?_⟩
  · intro i x hi hx
    rw [zWhere_getD thr xs hcase i hi, hx]
    simp only [Option.some_bind]
    constructor
    · intro hnone
      have hcond : ¬(ltSqrt (x - meanK xs) thr (varK xs) ∧
          ltSqrt (-(x - meanK xs)) 3 (varK xs)) := by
        intro hcond
        rw [if_pos hcond] at hnone
        exact Option.some_ne_none x hnone
      rw [ltSqrt_iff _ _ _ (varK_nonneg xs), ltSqrt_iff _ _ _ (varK_nonneg xs)] at hcond
      push_cast at hcond
      rcases not_and_or.mp hcond with h1 | h2
      · left
        push_neg at h1
        rw [le_div_iff₀ hs]
        linarith
      · right
        push_neg at h2
        rw [div_le_iff₀ hs]
        linarith
    · intro hz
      have hcond : ¬(ltSqrt (x - meanK xs) thr (varK xs) ∧
          ltSqrt (-(x - meanK xs)) 3 (varK xs)) := by
        rw [ltSqrt_iff _ _ _ (varK_nonneg xs), ltSqrt_iff _ _ _ (varK_nonneg xs)]
        push_cast
        rintro ⟨h1, h2⟩
        rcases hz with hz | hz
        · rw [le_div_iff₀ hs] at hz
          linarith
        · rw [div_le_iff₀ hs] at hz
          linarith
      rw [if_neg hcond]
  · intro i x hi hkept
    rw [interpCol_getD none (zWhere thr xs) i (by rw [zWhere_length]; exact hi),
      interpFill_of_some none (zWhere thr xs) i x hkept]
  · intro i hi
    rw [interpCol_getD none (zWhere thr xs) i (by rw [zWhere_length]; exact hi)]
    exact interpFill_eq_none_iff (zWhere thr xs) i

theorem C2_z_suppress_amended_witness :
    2 ≤ (knownQ [some 100, some 0, some 0, some 0, some 0]).length ∧
    varK [some 100, some 0, some 0, some 0, some 0] ≠ 0 ∧
    (1:ℕ) < ([some (100:ℚ), some 0, some 0, some 0, some 0].length) ∧
    (zWhere 1 [some 100, some 0, some 0, some 0, some 0]).getD 1 none = some 0 ∧
    (interpCol none (zWhere 1 [some 100, some 0, some 0, some 0, some 0])).getD 1 none
      = some 0 := by
  refine ⟨by decide, ?_, by decide, ?_, ?_⟩
  · norm_num [varK, meanK, knownQ, List.filterMap_cons, List.filterMap_nil, id]
  · norm_num [zWhere, varK, meanK, knownQ, ltSqrt, List.getD, List.filterMap_cons,
      List.filterMap_nil, id]
  · exact (C2_z_suppress_amended 1 [some 100, some 0, some 0, some 0, some 0]
      (by decide)
      (by norm_num [varK, meanK, knownQ, List.filterMap_cons, List.filterMap_nil, id])).2.2.1
      1 0 (by decide)
      (by norm_num [zWhere, varK, meanK, knownQ, ltSqrt, List.getD, List.filterMap_cons,
        List.filterMap_nil, id])

/-- C2 counterexample to the original claim: for the channel
[100, 0, 0, 0, 0] with z_threshold = 1 the sample at index 0 has Z-score
80 / sqrt 2000 (about 1.79), at least the threshold, so the stage nulls it -
but the following linear interpolation has no earlier known sample to start
from and pandas fills forward only, so the sample stays missing in the
output: it is not replaced by linear interpolation as the claim states. -/
theorem C2_cex_leading_extreme_not_replaced :
    (zWhere 1 [some 100, some 0, some 0, some 0, some 0]).getD 0 none = none ∧
    [some (100:ℚ), some 0, some 0, some 0, some 0].getD 0 none = some 100 ∧
    (cml_suppress_extremes_z 1
      { rsl_A := [some 100, some 0, some 0, some 0, some 0], rsl_B := [], rain := [] }).rsl_A
      = [none, some 0, some 0, some 0, some 0] := by
  refine ⟨?_, by decide, ?_⟩
  · norm_num [zWhere, varK, meanK, knownQ, ltSqrt, List.getD, List.filterMap_cons,
      List.filterMap_nil, id]
  · norm_num [cml_suppress_extremes_z, interpCol, interpFill, prevKnown, nextKnown, firstKnown,
      zWhere, varK, meanK, knownQ, ltSqrt, List.range_succ, List.getD, List.filterMap_cons,
      List.filterMap_nil, id]

/-- Centered rolling sample variance at position i: the square of
pandas Series.rolling(window=w, center=True).std().  The window for label i
covers the w indices from i - (w - 1 - off) through i + off with
off = (w - 1) / 2; with the default min_periods equal to the window size, the
result is missing whenever the window leaves the series or contains a missing
value.  With w below 2 the sample statistic has no degrees of freedom and is
always missing (pandas rolling with window 0 raises instead; no claim
depends on that case). -/
def rollingVarAt (w : ℕ) (xs : List (Option ℚ)) (i : ℕ) : Option ℚ :=
  if w < 2 ∨ i + (w - 1) / 2 + 1 < w ∨ xs.length ≤ i + (w - 1) / 2 then none
  else
    let win := (List.range w).map (fun k => xs.getD (i + (w - 1) / 2 + 1 - w + k) none)
    if win.all Option.isSome then some (varK win) else none

def rollingVar (w : ℕ) (xs : List (Option ℚ)) : List (Option ℚ) :=
  (List.range xs.length).map (rollingVarAt w xs)

/-- Forward fill: every missing value takes the value of the last earlier
known sample, as pandas fillna(method=ffill). -/
def ffillAux : Option ℚ → List (Option ℚ) → List (Option ℚ)
  | _, [] => []
  | cur, none :: t => cur :: ffillAux cur t
  | _, some a :: t => some a :: ffillAux (some a) t

def ffillL (xs : List (Option ℚ)) : List (Option ℚ) := ffillAux none xs

/-- Backward fill (pandas fillna(method=bfill)): forward fill of the
reversed list. -/
def bfillL (xs : List (Option ℚ)) : List (Option ℚ) := (ffillAux none xs.reverse).reverse

/-- Decidable rational test sqrt v < t for v >= 0: the float comparison
np.abs(rolling_std) < std_threshold, with rolling_std = sqrt v nonnegative so
the absolute value drops. -/
def sqrtLt (v t : ℚ) : Prop := 0 < t ∧ v < t ^ 2

instance sqrtLt.decidable (v t : ℚ) : Decidable (sqrtLt v t) := by
  unfold sqrtLt; infer_instance

theorem sqrtLt_iff (v t : ℚ) (_hv : 0 ≤ v) :
    sqrtLt v t ↔ Real.sqrt (v : ℝ) < (t : ℝ) := by
  unfold sqrtLt
  constructor
  · rintro ⟨ht, hlt⟩
    refine (Real.sqrt_lt' (by exact_mod_cast ht)).mpr ?_
    exact_mod_cast hlt
  · intro h
    have ht : (0:ℝ) < (t:ℝ) := lt_of_le_of_lt (Real.sqrt_nonneg _) h
    refine ⟨by exact_mod_cast ht, ?_⟩
    have := (Real.sqrt_lt' ht).mp h
    exact_mod_cast this

/-- Where of the rolling-std stage (preprocess_utility.py lines 134-144): the
rolling std is computed per channel, its edge NaN values are backward- then
forward-filled, and the channel keeps a sample exactly where the filled
rolling std is a number below the threshold; where the comparison involves
NaN it is false and the sample is nulled. -/
def stdWhere (w : ℕ) (std_threshold : ℚ) (xs : List (Option ℚ)) : List (Option ℚ) :=
  let rv := ffillL (bfillL (rollingVar w xs))
  (List.range xs.length).map (fun i =>
    match rv.getD i none with
    | none => none
    | some v => if sqrtLt v std_threshold then xs.getD i none else none)

/-- Embedding of cml_suppress_extremes_std (preprocess_utility.py lines
120-149): the rolling-std where on each RSL channel, then the frame-wide
linear interpolation of all columns. -/
def cml_suppress_extremes_std (window_size : ℕ) (std_threshold : ℚ) (t : CML) : CML :=
  { rsl_A := interpCol none (stdWhere window_size std_threshold t.rsl_A),
    rsl_B := interpCol none (stdWhere window_size std_threshold t.rsl_B),
    rain := interpCol none t.rain }

theorem knownQ_eq_nil_of_allNone (xs : List (Option ℚ)) (h : ∀ o ∈ xs, o = none) :
    knownQ xs = [] := by
  induction xs with
  | nil => rfl
  | cons o t ih =>
    have ho : o = none := h o (List.mem_cons_self o t)
    rw [knownQ, ho, List.filterMap_cons]
    exact ih (fun o' ho' => h o' (List.mem_cons_of_mem o ho'))

theorem map_const_none_of_allNone (xs : List (Option ℚ)) (h : ∀ o ∈ xs, o = none) :
    xs.map (fun _ => (none : Option ℚ)) = xs := by
  induction xs with
  | nil => rfl
  | cons o t ih =>
    have ho : o = none := h o (List.mem_cons_self o t)
    rw [List.map_cons, ih (fun o' ho' => h o' (List.mem_cons_of_mem o ho')), ho]

theorem zWhere_allNone (thr : ℚ) (xs : List (Option ℚ)) (h : ∀ o ∈ xs, o = none) :
    zWhere thr xs = xs := by
  rw [zWhere, if_pos (Or.inl (by rw [knownQ_eq_nil_of_allNone xs h]; simp))]
  exact map_const_none_of_allNone xs h

theorem ffillAux_allNone (xs : List (Option ℚ)) (h : ∀ o ∈ xs, o = none) :
    ffillAux none xs = xs := by
  induction xs with
  | nil => rfl
  | cons o t ih =>
    have ho : o = none := h o (List.mem_cons_self o t)
    subst ho
    rw [ffillAux]
    rw [ih (fun o' ho' => h o' (List.mem_cons_of_mem _ ho'))]

theorem rollingVarAt_allNone (w : ℕ) (xs : List (Option ℚ))
    (h : ∀ o ∈ xs, o = none) (i : ℕ) : rollingVarAt w xs i = none := by
  rw [rollingVarAt]
  split
  · rfl
  · rename_i hcond
    have hw2 : 2 ≤ w := by omega
    have hmem : (none : Option ℚ) ∈ (List.range w).map
        (fun k => xs.getD (i + (w - 1) / 2 + 1 - w + k) none) := by
      rcases List.mem_map.mp (List.mem_map_of_mem
        (fun k => xs.getD (i + (w - 1) / 2 + 1 - w + k) none)
        (List.mem_range.mpr (by omega : 0 < w))) with _
      exact List.mem_map.mpr ⟨0, List.mem_range.mpr (by omega),
        getD_none_of_allNone xs h _⟩
    rw [if_neg]
    intro hall
    have := List.all_eq_true.mp hall none hmem
    simp at this

theorem stdWhere_allNone (w : ℕ) (sthr : ℚ) (xs : List (Option ℚ))
    (h : ∀ o ∈ xs, o = none) : stdWhere w sthr xs = xs := by
  have hrv : ∀ o ∈ rollingVar w xs, o = none := by
    intro o ho
    rcases List.mem_map.mp ho with ⟨i, _, rfl⟩
    exact rollingVarAt_allNone w xs h i
  have hb : bfillL (rollingVar w xs) = rollingVar w xs := by
    rw [bfillL, ffillAux_allNone _ (fun o ho => hrv o (List.mem_reverse.mp ho)),
      List.reverse_reverse]
  have hf : ffillL (bfillL (rollingVar w xs)) = rollingVar w xs := by
    rw [hb, ffillL, ffillAux_allNone _ hrv]
  rw [stdWhere]
  simp only [hf]
  have : ∀ i, (match (rollingVar w xs).getD i none with
      | none => (none : Option ℚ)
      | some v => if sqrtLt v sthr then xs.getD i none else none) = none := by
    intro i
    have : (rollingVar w xs).getD i none = none :=
      getD_none_of_allNone (rollingVar w xs) hrv i
    rw [this]
  apply List.ext_getElem (by simp)
  intro i hi hxi
  simp only [List.getElem_map, List.getElem_range]
  rw [this i]
  exact ((by simpa using h _ (List.getElem_mem hxi)) : xs[i] = none).symm

/-- C5 amended: an all-missing channel is left unmodified by both the
rolling-std stage and the Z stage: its statistics are NaN, every comparison
against the thresholds is false, the wheres null samples that are already
missing, and interpolation has nothing to fill.  A constant non-missing
channel, however, is not left unmodified: its zero variance makes every
Z-score NaN, the keep-conditions are false everywhere and the Z stage nulls
the entire channel (see the counterexample). -/
theorem C5_degenerate_amended (w : ℕ) (sthr zthr : ℚ) (t : CML)
    (hA : ∀ o ∈ t.rsl_A, o = none) :
    (cml_suppress_extremes_std w sthr t).rsl_A = t.rsl_A ∧
    (cml_suppress_extremes_z zthr t).rsl_A = t.rsl_A ∧
    (∀ s : CML, (∀ o ∈ s.rsl_B, o = none) →
      (cml_suppress_extremes_std w sthr s).rsl_B = s.rsl_B ∧
      (cml_suppress_extremes_z zthr s).rsl_B = s.rsl_B) := by
  have hstd : ∀ xs : List (Option ℚ), (∀ o ∈ xs, o = none) →
      interpCol none (stdWhere w sthr xs) = xs := by
    intro xs h
    rw [stdWhere_allNone w sthr xs h]
    exact interpCol_id_of_allNone none xs h
  have hz : ∀ xs : List (Option ℚ), (∀ o ∈ xs, o = none) →
      interpCol none (zWhere zthr xs) = xs := by
    intro xs h
    rw [zWhere_allNone zthr xs h]
    exact interpCol_id_of_allNone none xs h
  exact ⟨hstd t.rsl_A hA, hz t.rsl_A hA,
    fun s hB => ⟨hstd s.rsl_B hB, hz s.rsl_B hB⟩⟩

theorem C5_degenerate_amended_witness :
    (∀ o ∈ [(none : Option ℚ), none], o = none) ∧
    (cml_suppress_extremes_std 10 5
      { rsl_A := [none, none], rsl_B := [], rain := [] }).rsl_A = [none, none] ∧
    (cml_suppress_extremes_z 10
      { rsl_A := [none, none], rsl_B := [], rain := [] }).rsl_A = [none, none] := by
  have h := C5_degenerate_amended 10 5 10
    { rsl_A := [none, none], rsl_B := [], rain := [] } (by decide)
  exact ⟨by decide, h.1, h.2.1⟩

/-- C5 counterexample: the constant channel [1, 1, 1] has zero variance, a
degenerate statistic in the claim's sense, but the Z stage is not a no-op on
it: every Z-score is 0/0 = NaN, both keep-conditions are false, every sample
is nulled and the all-missing channel cannot be re-interpolated, so the
stage destroys the channel instead of leaving it unmodified. -/
theorem C5_cex_constant_channel_destroyed :
    (cml_suppress_extremes_z 10
      { rsl_A := [some 1, some 1, some 1], rsl_B := [], rain := [] }).rsl_A
      = [none, none, none] ∧
    [some (1:ℚ), some 1, some 1].getD 0 none = some 1 := by
  refine ⟨?_, by decide⟩
  norm_num [cml_suppress_extremes_z, zWhere, varK, meanK, knownQ, List.filterMap_cons,
    List.filterMap_nil, id, interpCol, interpFill, prevKnown, nextKnown, firstKnown,
    List.range_succ, List.getD]

/-- Min-max standardisation of a channel, the first step of
cml_suppress_step: (x - min) / (max - min).  An all-missing channel has NaN
min and max and only missing values, so it passes through; a constant channel
divides 0 by 0 and becomes missing everywhere. -/
def minmaxCol (xs : List (Option ℚ)) : List (Option ℚ) :=
  match minKnown xs, maxKnown xs with
  | some mn, some mx =>
    if mx = mn then xs.map (fun _ => none)
    else xs.map (Option.map (fun x => (x - mn) / (mx - mn)))
  | _, _ => xs

/-- Handcrafted step kernel of cml_suppress_step: 100 samples of +1 followed
by 100 samples of -1 (np.hstack((np.ones(100), -np.ones(100)))). -/
def stepKernel : List ℚ := List.replicate 100 1 ++ List.replicate 100 (-1)

/-- Sum of a list of optional values, missing when any addend is missing:
how NaN propagates through the dot products of np.convolve. -/
def optSum : List (Option ℚ) → Option ℚ
  | [] => some 0
  | none :: _ => none
  | some x :: t => (optSum t).map (fun s => x + s)

/-- Entry n of the full convolution of an optional-valued signal with a plain
kernel: the sum of signal[m] * kernel[n - m] over the overlap window, missing
when the window touches a missing sample. -/
def convFullAt (a : List (Option ℚ)) (v : List ℚ) (n : ℕ) : Option ℚ :=
  optSum (((List.range a.length).filter (fun m => decide (n + 1 ≤ m + v.length) &&
    decide (m ≤ n))).map (fun m => (a.getD m none).map (fun x => x * v.getD (n - m) 0)))

/-- Model of np.convolve(a, v, mode=valid): the entries of the full
convolution where the two sequences overlap completely, that is the slice
[min - 1, max - 1] of the full result of length a.length + v.length - 1. -/
def convValid (a : List (Option ℚ)) (v : List ℚ) : List (Option ℚ) :=
  (((List.range (a.length + v.length - 1)).map (convFullAt a v)).drop
    (min a.length v.length - 1)).take (max a.length v.length - min a.length v.length + 1)

/-- Absolute valid convolution of a channel with the step kernel, padded with
100 leading and 99 trailing zeros as the source does with np.append. -/
def stepConvPadded (ys : List (Option ℚ)) : List (Option ℚ) :=
  List.replicate 100 (some 0) ++
    (convValid ys stepKernel).map (Option.map (fun c => |c|)) ++
    List.replicate 99 (some 0)

/-- Mask conv > conv_threshold of cml_suppress_step; a missing convolution
value compares false. -/
def stepMask (thr : ℚ) (cs : List (Option ℚ)) : List Bool :=
  cs.map (fun o => match o with | some c => decide (thr < c) | none => false)

/-- The padded convolution column masked by the threshold condition
(convDF.conv.where(step_mask)): entries where the mask is false become
missing. -/
def maskedConv (thr : ℚ) (ys : List (Option ℚ)) : List (Option ℚ) :=
  List.zipWith (fun o b => if b then o else none) (stepConvPadded ys)
    (stepMask thr (stepConvPadded ys))

/-- Rightmost end of the plateau of value v starting at the current position:
the inner while loop of the scipy local-maxima scan, which advances while the
next sample equals v. -/
def plateauEndFrom (xs : List (Option ℚ)) (v : ℚ) : ℕ → ℕ → ℕ
  | r, 0 => r
  | r, fuel + 1 =>
    if xs.getD (r + 1) none = some v then plateauEndFrom xs v (r + 1) fuel else r

/-- Local maxima of an optional-valued series, following the scipy
find_peaks scan: a (plateau of) sample(s) strictly greater than its two
defined neighbours yields a peak at the plateau midpoint; any comparison
against a missing value is false, so samples at the borders or next to a
missing value produce no peak. -/
def localMaxima (xs : List (Option ℚ)) : List ℕ :=
  (List.range xs.length).filterMap (fun l =>
    match xs.getD l none, (if 1 ≤ l then xs.getD (l - 1) none else none) with
    | some v, some w =>
      if w < v then
        match xs.getD (plateauEndFrom xs v l xs.length + 1) none with
        | some u =>
          if u < v ∧ plateauEndFrom xs v l xs.length + 1 < xs.length
          then some ((l + plateauEndFrom xs v l xs.length) / 2) else none
        | none => none
      else none
    | _, _ => none)

/-- Minimum value seen scanning left from a peak of height v until a sample
higher than v (or the border) stops the scan; part of the scipy prominence
computation.  Samples that are missing neither stop the scan nor count
towards the minimum, matching comparisons against NaN being false. -/
def promLeftMin (xs : List (Option ℚ)) (v : ℚ) : ℕ → ℚ → ℚ
  | 0, cur => cur
  | i + 1, cur =>
    match xs.getD i none with
    | some x => if v < x then cur else promLeftMin xs v i (min cur x)
    | none => promLeftMin xs v i cur

/-- Rightward analogue of promLeftMin, with explicit fuel. -/
def promRightMin (xs : List (Option ℚ)) (v : ℚ) : ℕ → ℕ → ℚ → ℚ
  | _, 0, cur => cur
  | j, fuel + 1, cur =>
    match xs.getD j none with
    | some x => if v < x then cur else promRightMin xs v (j + 1) fuel (min cur x)
    | none => promRightMin xs v (j + 1) fuel cur

/-- Prominence of a peak, following scipy peak_prominences: the peak height
minus the higher of the two base minima found scanning outward from the peak. -/
def prominenceAt (xs : List (Option ℚ)) (p : ℕ) : Option ℚ :=
  (xs.getD p none).map (fun v =>
    v - max (promLeftMin xs v p v) (promRightMin xs v (p + 1) (xs.length - p) v))

/-- Model of scipy.signal.find_peaks(series, prominence=1): local maxima
whose prominence is at least 1, in ascending index order. -/
def findPeaksProm1 (xs : List (Option ℚ)) : List ℕ :=
  (localMaxima xs).filter (fun p =>
    match prominenceAt xs p with
    | some pr => decide (1 ≤ pr)
    | none => false)

/-- Step boundaries of cml_suppress_step: index 0 prepended to the peaks of
the masked convolution (np.append(0, step_loc)). -/
def stepLocs (thr : ℚ) (ys : List (Option ℚ)) : List ℕ :=
  0 :: findPeaksProm1 (maskedConv thr ys)

/-- Subtraction of the segment mean over the slice [lo, hi) of a channel,
the in-place update cml[rsl][a:b] = cml[rsl][a:b] - cml[rsl][a:b].mean():
missing samples stay missing, and when the segment has no known sample its
mean is NaN and the whole segment becomes missing. -/
def demeanRange (xs : List (Option ℚ)) (lo hi : ℕ) : List (Option ℚ) :=
  mapIdxD (fun j o =>
    if lo ≤ j ∧ j < hi then
      if knownQ ((xs.drop lo).take (hi - lo)) = [] then none
      else o.map (fun x => x - meanK ((xs.drop lo).take (hi - lo)))
    else o) xs

/-- Sequential per-segment mean centering of cml_suppress_step: each pair of
consecutive boundaries delimits a segment, and the last boundary opens the
segment reaching the end of the series. -/
def demeanSegs : List (Option ℚ) → List ℕ → List (Option ℚ)
  | xs, [] => xs
  | xs, [l] => demeanRange xs l xs.length
  | xs, l₁ :: l₂ :: rest => demeanSegs (demeanRange xs l₁ l₂) (l₂ :: rest)

/-- One channel of cml_suppress_step: min-max standardisation, step detection
by convolution, then per-segment mean centering. -/
def suppressStepChan (thr : ℚ) (xs : List (Option ℚ)) : List (Option ℚ) :=
  demeanSegs (minmaxCol xs) (stepLocs thr (minmaxCol xs))

/-- Embedding of cml_suppress_step (preprocess_utility.py lines 181-222). -/
def cml_suppress_step (conv_threshold : ℚ) (t : CML) : CML :=
  { rsl_A := suppressStepChan conv_threshold t.rsl_A,
    rsl_B := suppressStepChan conv_threshold t.rsl_B,
    rain := t.rain }

/-- Row-wise drop of cml.dropna(axis=0, how=all, subset=[rsl_A, rsl_B]):
a row is removed exactly when both RSL values are missing; the rain value of
a dropped row disappears with it, and reset_index renumbers the survivors,
which the list order models. -/
def dropnaRsl (t : CML) : CML :=
  let kept := ((t.rsl_A.zip t.rsl_B).zip t.rain).filter
    (fun r => !(decide (r.1.1 = none) && decide (r.1.2 = none)))
  { rsl_A := kept.map (fun r => r.1.1),
    rsl_B := kept.map (fun r => r.1.2),
    rain := kept.map (fun r => r.2) }

/-- Frame-wide interpolation: pandas interpolate(axis=0) applied to every
column. -/
def interpTable (lim : Option ℕ) (t : CML) : CML :=
  { rsl_A := interpCol lim t.rsl_A,
    rsl_B := interpCol lim t.rsl_B,
    rain := interpCol lim t.rain }

/-- Final standardisation of cml_preprocess: each RSL channel divided by its
own maximum (cml[rsl].values / cml[rsl].max()).  An all-missing channel has a
NaN maximum and stays all-missing; a zero maximum produces only NaN and
infinity in float, modelled as missing (no claim depends on that case). -/
def normalizeCol (xs : List (Option ℚ)) : List (Option ℚ) :=
  match maxKnown xs with
  | none => xs.map (fun _ => none)
  | some m => if m = 0 then xs.map (fun _ => none)
    else xs.map (Option.map (fun x => x / m))

/-- Embedding of cml_preprocess (preprocess_utility.py lines 69-116): bounded
linear interpolation of every column, drop of the rows missing both RSL
values, unbounded interpolation, the three optional anomaly stages in their
fixed order, then per-channel max normalization of the two RSL columns. -/
def cml_preprocess (interp_max_gap : ℕ) (suppress_step : Bool) (conv_threshold : ℚ)
    (std_method : Bool) (window_size : ℕ) (std_threshold : ℚ)
    (z_method : Bool) (z_threshold : ℚ) (t : CML) : CML :=
  let c3 := interpTable none (dropnaRsl (interpTable (some interp_max_gap) t))
  let c4 := if suppress_step then cml_suppress_step conv_threshold c3 else c3
  let c5 := if std_method then cml_suppress_extremes_std window_size std_threshold c4 else c4
  let c6 := if z_method then cml_suppress_extremes_z z_threshold c5 else c5
  { rsl_A := normalizeCol c6.rsl_A, rsl_B := normalizeCol c6.rsl_B, rain := c6.rain }

theorem dropnaRsl_id (t : CML) (hA : ∀ o ∈ t.rsl_A, o ≠ none)
    (hlen1 : t.rsl_B.length = t.rsl_A.length) (hlen2 : t.rain.length = t.rsl_A.length) :
    dropnaRsl t = t := by
  have hfil : ((t.rsl_A.zip t.rsl_B).zip t.rain).filter
      (fun r => !(decide (r.1.1 = none) && decide (r.1.2 = none)))
      = (t.rsl_A.zip t.rsl_B).zip t.rain := by
    apply List.filter_eq_self.mpr
    intro r hr
    have hr1 : r.1 ∈ t.rsl_A.zip t.rsl_B := (List.of_mem_zip hr).1
    have hrA : r.1.1 ∈ t.rsl_A := (List.of_mem_zip hr1).1
    have : r.1.1 ≠ none := hA _ hrA
    simp [this]
  have hAB : (t.rsl_A.zip t.rsl_B).length = t.rsl_A.length := by
    rw [List.length_zip, hlen1, Nat.min_self]
  rcases t with ⟨A, B, R⟩
  simp only [dropnaRsl, hfil]
  simp only at hA hlen1 hlen2 hAB
  congr 1
  · have h1 : (List.map Prod.fst ((A.zip B).zip R)) = A.zip B :=
      List.map_fst_zip _ _ (by rw [hAB, ← hlen2])
    calc ((A.zip B).zip R).map ((fun r => r.1.1))
        = ((A.zip B).zip R).map (Prod.fst ∘ Prod.fst) := rfl
      _ = (((A.zip B).zip R).map Prod.fst).map Prod.fst := by rw [List.map_map]
      _ = (A.zip B).map Prod.fst := by rw [h1]
      _ = A := List.map_fst_zip _ _ (by rw [hlen1])
  · have h1 : (List.map Prod.fst ((A.zip B).zip R)) = A.zip B :=
      List.map_fst_zip _ _ (by rw [hAB, ← hlen2])
    calc ((A.zip B).zip R).map ((fun r => r.1.2))
        = (((A.zip B).zip R).map Prod.fst).map Prod.snd := by rw [List.map_map]; rfl
      _ = (A.zip B).map Prod.snd := by rw [h1]
      _ = B := List.map_snd_zip _ _ (by rw [hlen1])
  · calc ((A.zip B).zip R).map (fun r => r.2)
        = ((A.zip B).zip R).map Prod.snd := rfl
      _ = R := List.map_snd_zip _ _ (by rw [hAB, ← hlen2])

theorem le_foldl_max (h : ℚ) (t : List ℚ) :
    h ≤ t.foldl max h ∧ ∀ x ∈ t, x ≤ t.foldl max h := by
  induction t generalizing h with
  | nil => exact ⟨le_refl h, by simp⟩
  | cons a t ih =>
    rw [List.foldl_cons]
    refine ⟨le_trans (le_max_left h a) (ih (max h a)).1, ?_⟩
    intro x hx
    rcases List.mem_cons.mp hx with rfl | hx'
    · exact le_trans (le_max_right h x) (ih (max h x)).1
    · exact (ih (max h a)).2 x hx'

theorem foldl_max_mem (h : ℚ) (t : List ℚ) : t.foldl max h ∈ h :: t := by
  induction t generalizing h with
  | nil => simp
  | cons a t ih =>
    rw [List.foldl_cons]
    rcases List.mem_cons.mp (ih (max h a)) with he | hm
    · rcases max_choice h a with hc | hc
      · exact List.mem_cons.mpr (Or.inl (he.trans hc))
      · exact List.mem_cons.mpr (Or.inr (List.mem_cons.mpr (Or.inl (he.trans hc))))
    · exact List.mem_cons.mpr (Or.inr (List.mem_cons.mpr (Or.inr hm)))

theorem maxKnown_spec (xs : List (Option ℚ)) (m : ℚ) (h : maxKnown xs = some m) :
    m ∈ knownQ xs ∧ ∀ x ∈ knownQ xs, x ≤ m := by
  unfold maxKnown at h
  rcases hk : knownQ xs with _ | ⟨h', t⟩
  · rw [hk] at h; exact absurd h (by simp)
  · rw [hk] at h
    have hm : m = t.foldl max h' := by simpa using h.symm
    subst hm
    exact ⟨foldl_max_mem h' t, fun x hx => by
      rcases List.mem_cons.mp hx with rfl | hx'
      · exact (le_foldl_max x t).1
      · exact (le_foldl_max h' t).2 x hx'⟩

theorem getD_some_mem_knownQ (xs : List (Option ℚ)) (i : ℕ) (x : ℚ)
    (h : xs.getD i none = some x) : x ∈ knownQ xs := by
  rcases Nat.lt_or_ge i xs.length with hi | hi
  · rw [List.getD_eq_getElem?_getD, List.getElem?_eq_getElem hi] at h
    have : xs[i] = some x := by simpa using h
    exact List.mem_filterMap.mpr ⟨some x, this ▸ List.getElem_mem hi, rfl⟩
  · rw [List.getD_eq_getElem?_getD, List.getElem?_eq_none hi] at h
    exact absurd h (by simp)

theorem knownQ_map (f : ℚ → ℚ) (xs : List (Option ℚ)) :
    knownQ (xs.map (Option.map f)) = (knownQ xs).map f := by
  induction xs with
  | nil => rfl
  | cons o t ih =>
    rcases o with _ | a <;> simp [knownQ, List.filterMap_cons] at ih ⊢ <;> exact ih

theorem foldl_max_div (m : ℚ) (hm : 0 < m) (h : ℚ) (t : List ℚ) :
    (t.map (fun x => x / m)).foldl max (h / m) = (t.foldl max h) / m := by
  induction t generalizing h with
  | nil => rfl
  | cons a t ih =>
    rw [List.map_cons, List.foldl_cons, List.foldl_cons, max_div_div_right hm.le, ih]

theorem maxKnown_div (xs : List (Option ℚ)) (M m : ℚ) (hm : 0 < m)
    (h : maxKnown xs = some M) :
    maxKnown (xs.map (Option.map (fun x => x / m))) = some (M / m) := by
  unfold maxKnown at h ⊢
  rw [knownQ_map]
  rcases hk : knownQ xs with _ | ⟨h', t⟩
  · rw [hk] at h; exact absurd h (by simp)
  · rw [hk] at h
    have hM : M = t.foldl max h' := by simpa using h.symm
    rw [List.map_cons]
    simp only [Option.some_inj]
    rw [foldl_max_div m hm h' t, hM]

theorem normalizeCol_eq_map (xs : List (Option ℚ)) (m : ℚ)
    (h : maxKnown xs = some m) (hm : m ≠ 0) :
    normalizeCol xs = xs.map (Option.map (fun x => x / m)) := by
  unfold normalizeCol
  rw [h]
  exact if_neg hm

theorem normalizeCol_bounds (xs : List (Option ℚ)) (m : ℚ) (h : maxKnown xs = some m)
    (hpos : ∀ x ∈ knownQ xs, 0 < x) (hno : ∀ o ∈ xs, o ≠ none) :
    (∀ o ∈ normalizeCol xs, ∃ y, o = some y ∧ 0 < y ∧ y ≤ 1) ∧
    maxKnown (normalizeCol xs) = some 1 := by
  have hmpos : 0 < m := hpos m (maxKnown_spec xs m h).1
  rw [normalizeCol_eq_map xs m h (ne_of_gt hmpos)]
  constructor
  · intro o ho
    rcases List.mem_map.mp ho with ⟨o', ho', rfl⟩
    rcases o' with _ | x
    · exact absurd rfl (hno _ ho')
    · refine ⟨x / m, rfl, ?_, ?_⟩
      · exact div_pos (hpos x (List.mem_filterMap.mpr ⟨some x, ho', rfl⟩)) hmpos
      · exact (div_le_one hmpos).mpr ((maxKnown_spec xs m h).2 x
          (List.mem_filterMap.mpr ⟨some x, ho', rfl⟩))
  · rw [maxKnown_div xs m m hmpos h, div_self (ne_of_gt hmpos)]

theorem interpTable_id (lim : Option ℕ) (t : CML) (hA : ∀ o ∈ t.rsl_A, o ≠ none)
    (hB : ∀ o ∈ t.rsl_B, o ≠ none) (hR : ∀ o ∈ t.rain, o ≠ none) :
    interpTable lim t = t := by
  rcases t with ⟨A, B, R⟩
  simp only [interpTable]
  simp only at hA hB hR
  congr 1
  · exact interpCol_id_of_noNone lim A hA
  · exact interpCol_id_of_noNone lim B hB
  · exact interpCol_id_of_noNone lim R hR

theorem cml_preprocess_flagsOff (g : ℕ) (ct : ℚ) (w : ℕ) (st zt : ℚ) (t : CML)
    (hA : ∀ o ∈ t.rsl_A, o ≠ none) (hB : ∀ o ∈ t.rsl_B, o ≠ none)
    (hR : ∀ o ∈ t.rain, o ≠ none)
    (hlen1 : t.rsl_B.length = t.rsl_A.length) (hlen2 : t.rain.length = t.rsl_A.length) :
    cml_preprocess g false ct false w st false zt t =
      { rsl_A := normalizeCol t.rsl_A, rsl_B := normalizeCol t.rsl_B, rain := t.rain } := by
  unfold cml_preprocess
  rw [interpTable_id (some g) t hA hB hR, dropnaRsl_id t hA hlen1 hlen2,
    interpTable_id none t hA hB hR]
  simp

/-- C1 amended: with no missing values, equal column lengths and all
suppression stages off, cml_preprocess only applies the final normalization:
each RSL channel whose maximum is nonzero comes out equal to the input
channel divided by its own maximum, and the rain column is untouched;
moreover each channel whose values are all positive comes out with every
value in (0, 1] and with maximum exactly 1.  (A channel holding a
nonpositive value with positive maximum keeps a nonpositive output value,
which is why the positivity restriction is needed; see the counterexample.) -/
theorem C1_preprocess_norm_amended (g : ℕ) (ct : ℚ) (w : ℕ) (st zt : ℚ) (t : CML)
    (hA : ∀ o ∈ t.rsl_A, o ≠ none) (hB : ∀ o ∈ t.rsl_B, o ≠ none)
    (hR : ∀ o ∈ t.rain, o ≠ none)
    (hlen1 : t.rsl_B.length = t.rsl_A.length) (hlen2 : t.rain.length = t.rsl_A.length) :
    (∀ m, maxKnown t.rsl_A = some m → m ≠ 0 →
      (cml_preprocess g false ct false w st false zt t).rsl_A
        = t.rsl_A.map (Option.map (fun x => x / m))) ∧
    (∀ m, maxKnown t.rsl_B = some m → m ≠ 0 →
      (cml_preprocess g false ct false w st false zt t).rsl_B
        = t.rsl_B.map (Option.map (fun x => x / m))) ∧
    (cml_preprocess g false ct false w st false zt t).rain = t.rain ∧
    ((∀ x ∈ knownQ t.rsl_A, 0 < x) → ∀ m, maxKnown t.rsl_A = some m →
      (∀ o ∈ (cml_preprocess g false ct false w st false zt t).rsl_A,
        ∃ y, o = some y ∧ 0 < y ∧ y ≤ 1) ∧
      maxKnown ((cml_preprocess g false ct false w st false zt t).rsl_A) = some 1) ∧
    ((∀ x ∈ knownQ t.rsl_B, 0 < x) → ∀ m, maxKnown t.rsl_B = some m →
      (∀ o ∈ (cml_preprocess g false ct false w st false zt t).rsl_B,
        ∃ y, o = some y ∧ 0 < y ∧ y ≤ 1) ∧
      maxKnown ((cml_preprocess g false ct false w st false zt t).rsl_B) = some 1) := by
  rw [cml_preprocess_flagsOff g ct w st zt t hA hB hR hlen1 hlen2]
  refine ⟨fun m hm hm0 => normalizeCol_eq_map t.rsl_A m hm hm0,
    fun m hm hm0 => normalizeCol_eq_map t.rsl_B m hm hm0, rfl,
    fun hpos m hm => normalizeCol_bounds t.rsl_A m hm hpos hA,
    fun hpos m hm => normalizeCol_bounds t.rsl_B m hm hpos hB⟩

theorem C1_preprocess_norm_amended_witness :
    maxKnown [some (1:ℚ), some 2] = some 2 ∧
    (∀ x ∈ knownQ [some (1:ℚ), some 2], 0 < x) ∧
    (cml_preprocess 10 false 20 false 10 5 false 10
      { rsl_A := [some 1, some 2], rsl_B := [some 2, some 2],
        rain := [some 0, some 0] }).rsl_A = [some (1/2), some 1] ∧
    maxKnown ((cml_preprocess 10 false 20 false 10 5 false 10
      { rsl_A := [some 1, some 2], rsl_B := [some 2, some 2],
        rain := [some 0, some 0] }).rsl_A) = some 1 := by
  have h := C1_preprocess_norm_amended 10 20 10 5 10
    { rsl_A := [some 1, some 2], rsl_B := [some 2, some 2], rain := [some 0, some 0] }
    (by decide) (by decide) (by decide) (by decide) (by decide)
  refine ⟨by decide, by decide, ?_, ?_⟩
  · have he := h.1 2 (by decide) (by decide)
    rw [he]
    norm_num
  · exact (h.2.2.2.1 (by decide) 2 (by decide)).2

/-- C1 counterexample: the channel rsl_A = [-5, 10] is neither all-negative
nor all-zero, so the claim puts every cml_preprocess output value of that
channel in (0, 1]; but with all suppression off the output is the channel
divided by its maximum 10, and the first output value -1/2 is not positive. -/
theorem C1_cex_negative_value :
    (cml_preprocess 10 false 20 false 10 5 false 10
      { rsl_A := [some (-5), some 10], rsl_B := [some 10, some 10],
        rain := [some 0, some 0] }).rsl_A = [some (-(1/2)), some 1] ∧
    ¬(0 < (-(1/2) : ℚ)) := by
  constructor
  · rw [cml_preprocess_flagsOff 10 20 10 5 10 _
      (by decide) (by decide) (by decide) (by decide) (by decide)]
    have hmax : maxKnown [some (-5), some 10] = some 10 := by decide
    rw [normalizeCol_eq_map _ 10 hmax (by norm_num)]
    norm_num
  · norm_num

theorem noNone_map_optionMap (f : ℚ → ℚ) (xs : List (Option ℚ))
    (h : ∀ o ∈ xs, o ≠ none) : ∀ o ∈ xs.map (Option.map f), o ≠ none := by
  intro o ho
  rcases List.mem_map.mp ho with ⟨o', ho', rfl⟩
  rcases o' with _ | x
  · exact absurd rfl (h _ ho')
  · simp

theorem map_div_one (ys : List (Option ℚ)) :
    ys.map (Option.map (fun x => x / 1)) = ys := by
  simp [div_one]

/-- C9 amended: with all three anomaly-suppression stages disabled, for any
table with no missing values, equal column lengths, and positive channel
maxima, cml_preprocess is exactly idempotent: its output channels are already
normalized to maximum 1, so a second run divides by 1 and changes nothing.
(With z_method enabled idempotence fails: a constant channel is nulled
entirely on the first run, and on the second run the all-missing rows are
dropped, changing even the number of rows; see the counterexample.) -/
theorem C9_idempotent_amended (g : ℕ) (ct : ℚ) (w : ℕ) (st zt : ℚ) (t : CML)
    (hA : ∀ o ∈ t.rsl_A, o ≠ none) (hB : ∀ o ∈ t.rsl_B, o ≠ none)
    (hR : ∀ o ∈ t.rain, o ≠ none)
    (hlen1 : t.rsl_B.length = t.rsl_A.length) (hlen2 : t.rain.length = t.rsl_A.length)
    (hmA : ∃ m, maxKnown t.rsl_A = some m ∧ 0 < m)
    (hmB : ∃ m, maxKnown t.rsl_B = some m ∧ 0 < m) :
    cml_preprocess g false ct false w st false zt
      (cml_preprocess g false ct false w st false zt t)
      = cml_preprocess g false ct false w st false zt t := by
  obtain ⟨mA, hmA', hmApos⟩ := hmA
  obtain ⟨mB, hmB', hmBpos⟩ := hmB
  have hnA : normalizeCol t.rsl_A = t.rsl_A.map (Option.map (fun x => x / mA)) :=
    normalizeCol_eq_map t.rsl_A mA hmA' (ne_of_gt hmApos)
  have hnB : normalizeCol t.rsl_B = t.rsl_B.map (Option.map (fun x => x / mB)) :=
    normalizeCol_eq_map t.rsl_B mB hmB' (ne_of_gt hmBpos)
  have hmax1A : maxKnown (normalizeCol t.rsl_A) = some 1 := by
    rw [hnA, maxKnown_div t.rsl_A mA mA hmApos hmA', div_self (ne_of_gt hmApos)]
  have hmax1B : maxKnown (normalizeCol t.rsl_B) = some 1 := by
    rw [hnB, maxKnown_div t.rsl_B mB mB hmBpos hmB', div_self (ne_of_gt hmBpos)]
  have hP := cml_preprocess_flagsOff g ct w st zt t hA hB hR hlen1 hlen2
  rw [hP]
  have hP2 := cml_preprocess_flagsOff g ct w st zt
    { rsl_A := normalizeCol t.rsl_A, rsl_B := normalizeCol t.rsl_B, rain := t.rain }
    (by rw [hnA]; exact noNone_map_optionMap _ t.rsl_A hA)
    (by rw [hnB]; exact noNone_map_optionMap _ t.rsl_B hB)
    hR
    (by rw [hnA, hnB]; simp [hlen1])
    (by rw [hnA]; simp [hlen2])
  rw [hP2]
  congr 1
  · rw [normalizeCol_eq_map (normalizeCol t.rsl_A) 1 hmax1A one_ne_zero, map_div_one]
  · rw [normalizeCol_eq_map (normalizeCol t.rsl_B) 1 hmax1B one_ne_zero, map_div_one]

theorem C9_idempotent_amended_witness :
    (∃ m, maxKnown [some (1:ℚ), some 2] = some m ∧ 0 < m) ∧
    (∃ m, maxKnown [some (2:ℚ), some 2] = some m ∧ 0 < m) ∧
    cml_preprocess 10 false 20 false 10 5 false 10
      (cml_preprocess 10 false 20 false 10 5 false 10
        { rsl_A := [some 1, some 2], rsl_B := [some 2, some 2], rain := [some 0, some 0] })
      = cml_preprocess 10 false 20 false 10 5 false 10
        { rsl_A := [some 1, some 2], rsl_B := [some 2, some 2], rain := [some 0, some 0] } :=
  ⟨⟨2, by decide, by norm_num⟩, ⟨2, by decide, by norm_num⟩,
    C9_idempotent_amended 10 20 10 5 10
      { rsl_A := [some 1, some 2], rsl_B := [some 2, some 2], rain := [some 0, some 0] }
      (by decide) (by decide) (by decide) (by decide) (by decide)
      ⟨2, by decide, by norm_num⟩ ⟨2, by decide, by norm_num⟩⟩

/-- C9 counterexample: with z_method enabled (z_threshold 10, all other
stages off), the constant table rsl_A = rsl_B = [1,1,1], rain = [0,0,0] is
not a fixed point of a second run: the first run nulls both zero-variance
channels entirely (Z = 0/0 = NaN) and normalization keeps them missing, so
the output has 3 all-missing rows; the second run drops those rows in the
dropna step and returns empty columns - a change far beyond floating-point
tolerance, the row count itself differs. -/
theorem C9_cex_constant_not_idempotent :
    (cml_preprocess 10 false 20 false 10 5 true 10
      { rsl_A := [some 1, some 1, some 1], rsl_B := [some 1, some 1, some 1],
        rain := [some 0, some 0, some 0] }).rsl_A = [none, none, none] ∧
    (cml_preprocess 10 false 20 false 10 5 true 10
      (cml_preprocess 10 false 20 false 10 5 true 10
        { rsl_A := [some 1, some 1, some 1], rsl_B := [some 1, some 1, some 1],
          rain := [some 0, some 0, some 0] })).rsl_A = [] ∧
    cml_preprocess 10 false 20 false 10 5 true 10
      (cml_preprocess 10 false 20 false 10 5 true 10
        { rsl_A := [some 1, some 1, some 1], rsl_B := [some 1, some 1, some 1],
          rain := [some 0, some 0, some 0] })
      ≠ cml_preprocess 10 false 20 false 10 5 true 10
        { rsl_A := [some 1, some 1, some 1], rsl_B := [some 1, some 1, some 1],
          rain := [some 0, some 0, some 0] } := by
  have h1 : (cml_preprocess 10 false 20 false 10 5 true 10
      { rsl_A := [some 1, some 1, some 1], rsl_B := [some 1, some 1, some 1],
        rain := [some 0, some 0, some 0] }).rsl_A = [none, none, none] := by
    norm_num [cml_preprocess, interpTable, interpCol, interpFill, prevKnown, nextKnown,
      firstKnown, dropnaRsl, cml_suppress_extremes_z, zWhere, varK, meanK, knownQ,
      normalizeCol, maxKnown, List.range_succ, List.filterMap_cons, List.filterMap_nil, id,
      List.getD, List.filter_cons, List.filter_nil, Option.some_ne_none]
  have h2 : (cml_preprocess 10 false 20 false 10 5 true 10
      (cml_preprocess 10 false 20 false 10 5 true 10
        { rsl_A := [some 1, some 1, some 1], rsl_B := [some 1, some 1, some 1],
          rain := [some 0, some 0, some 0] })).rsl_A = [] := by
    norm_num [cml_preprocess, interpTable, interpCol, interpFill, prevKnown, nextKnown,
      firstKnown, dropnaRsl, cml_suppress_extremes_z, zWhere, varK, meanK, knownQ,
      normalizeCol, maxKnown, List.range_succ, List.filterMap_cons, List.filterMap_nil, id,
      List.getD, List.filter_cons, List.filter_nil, Option.some_ne_none]
  refine ⟨h1, h2, fun heq => ?_⟩
  have h3 := congrArg CML.rsl_A heq
  rw [h1, h2] at h3
  exact (by simp : ¬([] : List (Option ℚ)) = [none, none, none]) h3

theorem maskedConv_eq_map (thr : ℚ) (ys : List (Option ℚ)) :
    maskedConv thr ys = (stepConvPadded ys).map
      (fun o => if (match o with | some c => decide (thr < c) | none => false)
        then o else none) := by
  rw [maskedConv, stepMask, List.zipWith_map_right, List.zipWith_same]

theorem maskedConv_allNone (thr : ℚ) (ys : List (Option ℚ))
    (h : ∀ o ∈ stepConvPadded ys, ∀ c, o = some c → c ≤ thr) :
    ∀ o ∈ maskedConv thr ys, o = none := by
  rw [maskedConv_eq_map]
  intro o ho
  rcases List.mem_map.mp ho with ⟨o', ho', rfl⟩
  rcases hc : o' with _ | c
  · rfl
  · have hle : c ≤ thr := h o' ho' c hc
    rw [if_neg]
    simp [hle, not_lt]

theorem localMaxima_allNone (xs : List (Option ℚ)) (h : ∀ o ∈ xs, o = none) :
    localMaxima xs = [] := by
  rw [localMaxima, List.filterMap_eq_nil_iff]
  intro l _
  rw [getD_none_of_allNone xs h l]

theorem stepLocs_of_no_mask (thr : ℚ) (ys : List (Option ℚ))
    (h : ∀ o ∈ stepConvPadded ys, ∀ c, o = some c → c ≤ thr) :
    stepLocs thr ys = [0] := by
  rw [stepLocs, findPeaksProm1, localMaxima_allNone _ (maskedConv_allNone thr ys h)]
  rfl

theorem optSum_abs_le (l : List (Option ℚ)) (s : ℚ) (h : optSum l = some s)
    (hb : ∀ o ∈ l, ∀ y, o = some y → |y| ≤ 1) : |s| ≤ (l.length : ℚ) := by
  induction l generalizing s with
  | nil =>
    rw [optSum] at h
    have : s = 0 := by simpa using h.symm
    simp [this]
  | cons o t ih =>
    rcases ho : o with _ | x
    · subst ho; rw [optSum] at h; simp at h
    · subst ho
      rw [optSum] at h
      rcases ht : optSum t with _ | s'
      · rw [ht] at h; simp at h
      · rw [ht] at h
        have hs : s = x + s' := by simpa using h.symm
        have h1 : |x| ≤ 1 := hb (some x) (List.mem_cons_self _ t) x rfl
        have h2 : |s'| ≤ (t.length : ℚ) :=
          ih s' ht (fun o' ho' y hy => hb o' (List.mem_cons_of_mem _ ho') y hy)
        calc |s| = |x + s'| := by rw [hs]
          _ ≤ |x| + |s'| := abs_add x s'
          _ ≤ 1 + t.length := add_le_add h1 h2
          _ = ((some x :: t).length : ℚ) := by push_cast [List.length_cons]; ring

theorem stepKernel_abs_le (x : ℚ) (hx : x ∈ stepKernel) : |x| ≤ 1 := by
  rcases List.mem_append.mp hx with hm | hm <;>
    rw [List.eq_of_mem_replicate hm] <;> norm_num

theorem stepKernel_getD_abs_le (j : ℕ) : |stepKernel.getD j 0| ≤ 1 := by
  rcases Nat.lt_or_ge j stepKernel.length with hj | hj
  · rw [List.getD_eq_getElem?_getD, List.getElem?_eq_getElem hj]
    exact stepKernel_abs_le _ (List.getElem_mem hj)
  · rw [List.getD_eq_getElem?_getD, List.getElem?_eq_none hj]
    norm_num

theorem convFullAt_abs_le (a : List (Option ℚ)) (n : ℕ)
    (hvals : ∀ x ∈ knownQ a, 0 ≤ x ∧ x ≤ 1) (c : ℚ)
    (h : convFullAt a stepKernel n = some c) : |c| ≤ (a.length : ℚ) := by
  rw [convFullAt] at h
  have hlen : (((List.range a.length).filter (fun m => decide (n + 1 ≤ m + stepKernel.length) &&
      decide (m ≤ n))).map (fun m => (a.getD m none).map
        (fun x => x * stepKernel.getD (n - m) 0))).length ≤ a.length := by
    rw [List.length_map]
    calc ((List.range a.length).filter _).length ≤ (List.range a.length).length :=
        List.length_filter_le _ _
      _ = a.length := List.length_range a.length
  have hterm : ∀ o ∈ ((List.range a.length).filter (fun m =>
      decide (n + 1 ≤ m + stepKernel.length) && decide (m ≤ n))).map
        (fun m => (a.getD m none).map (fun x => x * stepKernel.getD (n - m) 0)),
      ∀ y, o = some y → |y| ≤ 1 := by
    intro o ho y hy
    rcases List.mem_map.mp ho with ⟨m, _, rfl⟩
    rcases hm : a.getD m none with _ | x
    · rw [hm] at hy; simp at hy
    · rw [hm] at hy
      have hxy : y = x * stepKernel.getD (n - m) 0 := by simpa using hy.symm
      have hx01 := hvals x (getD_some_mem_knownQ a m x hm)
      have hxabs : |x| ≤ 1 := abs_le.mpr ⟨by linarith [hx01.1], hx01.2⟩
      calc |y| = |x| * |stepKernel.getD (n - m) 0| := by rw [hxy, abs_mul]
        _ ≤ 1 * 1 := mul_le_mul hxabs (stepKernel_getD_abs_le (n - m))
            (abs_nonneg _) (by norm_num)
        _ = 1 := by norm_num
  calc |c| ≤ _ := optSum_abs_le _ c h hterm
    _ ≤ (a.length : ℚ) := by exact_mod_cast hlen

theorem stepConvPadded_le (thr : ℚ) (ys : List (Option ℚ))
    (hvals : ∀ x ∈ knownQ ys, 0 ≤ x ∧ x ≤ 1) (hlen : (ys.length : ℚ) ≤ thr) :
    ∀ o ∈ stepConvPadded ys, ∀ c, o = some c → c ≤ thr := by
  have h0 : (0:ℚ) ≤ thr := le_trans (by positivity) hlen
  intro o ho c hc
  rw [stepConvPadded] at ho
  rcases List.mem_append.mp ho with ho' | hrep
  · rcases List.mem_append.mp ho' with hrep | hconv
    · rw [List.eq_of_mem_replicate hrep] at hc
      have : c = 0 := by simpa using hc.symm
      rw [this]; exact h0
    · rcases List.mem_map.mp hconv with ⟨o', ho'', rfl⟩
      rcases hc' : o' with _ | c'
      · rw [hc'] at hc; simp at hc
      · rw [hc'] at hc
        have hcc : c = |c'| := by simpa using hc.symm
        have ho3 : o' ∈ (List.range (ys.length + stepKernel.length - 1)).map
            (convFullAt ys stepKernel) := by
          have hcv : o' ∈ (((List.range (ys.length + stepKernel.length - 1)).map
              (convFullAt ys stepKernel)).drop (min ys.length stepKernel.length - 1)).take
              (max ys.length stepKernel.length - min ys.length stepKernel.length + 1) := by
            simpa [convValid] using ho''
          exact List.mem_of_mem_drop (List.mem_of_mem_take hcv)
        rcases List.mem_map.mp ho3 with ⟨n, _, hn⟩
        have := convFullAt_abs_le ys n hvals c' (hn.trans hc')
        calc c = |c'| := hcc
          _ ≤ (ys.length : ℚ) := this
          _ ≤ thr := hlen
  · rw [List.eq_of_mem_replicate hrep] at hc
    have : c = 0 := by simpa using hc.symm
    rw [this]; exact h0

/-- C6 amended: whenever no value of the padded convolution of a channel
exceeds conv_threshold (in particular when the peaks are below it), the
threshold mask is empty, find_peaks returns nothing, the boundary list is
just index 0 and the whole series is one segment - but cml_suppress_step does
not return the input unchanged: the channel comes out min-max standardised
and mean-centered as a single segment, and only the rain column passes
through untouched. -/
theorem suppressStepChan_no_mask (thr : ℚ) (xs : List (Option ℚ))
    (h : ∀ o ∈ stepConvPadded (minmaxCol xs), ∀ c, o = some c → c ≤ thr) :
    suppressStepChan thr xs = demeanRange (minmaxCol xs) 0 (minmaxCol xs).length := by
  unfold suppressStepChan
  rw [stepLocs_of_no_mask thr (minmaxCol xs) h]
  simp only [demeanSegs]

theorem C6_step_no_peaks_amended (thr : ℚ) (t : CML)
    (hA : ∀ o ∈ stepConvPadded (minmaxCol t.rsl_A), ∀ c, o = some c → c ≤ thr)
    (hB : ∀ o ∈ stepConvPadded (minmaxCol t.rsl_B), ∀ c, o = some c → c ≤ thr) :
    stepLocs thr (minmaxCol t.rsl_A) = [0] ∧
    stepLocs thr (minmaxCol t.rsl_B) = [0] ∧
    (cml_suppress_step thr t).rsl_A
      = demeanRange (minmaxCol t.rsl_A) 0 (minmaxCol t.rsl_A).length ∧
    (cml_suppress_step thr t).rsl_B
      = demeanRange (minmaxCol t.rsl_B) 0 (minmaxCol t.rsl_B).length ∧
    (cml_suppress_step thr t).rain = t.rain := by
  refine ⟨stepLocs_of_no_mask thr (minmaxCol t.rsl_A) hA,
    stepLocs_of_no_mask thr (minmaxCol t.rsl_B) hB, ?_, ?_, ?_⟩
  · simp only [cml_suppress_step]
    exact suppressStepChan_no_mask thr t.rsl_A hA
  · simp only [cml_suppress_step]
    exact suppressStepChan_no_mask thr t.rsl_B hB
  · simp only [cml_suppress_step]

theorem C6_step_no_peaks_amended_witness :
    (∀ o ∈ stepConvPadded (minmaxCol [some (0:ℚ), some 1]), ∀ c, o = some c → c ≤ 20) ∧
    stepLocs 20 (minmaxCol [some (0:ℚ), some 1]) = [0] ∧
    (cml_suppress_step 20
      { rsl_A := [some 0, some 1], rsl_B := [some 0, some 1],
        rain := [some 0, some 0] }).rain = [some 0, some 0] := by
  have hmm : minmaxCol [some (0:ℚ), some 1] = [some 0, some 1] := by
    norm_num [minmaxCol, minKnown, maxKnown, knownQ, List.filterMap_cons,
      List.filterMap_nil, id, max_def, min_def]
  have hb : ∀ o ∈ stepConvPadded (minmaxCol [some (0:ℚ), some 1]),
      ∀ c, o = some c → c ≤ 20 := by
    rw [hmm]
    refine stepConvPadded_le 20 [some 0, some 1] ?_ (by norm_num)
    intro x hx
    have : x = 0 ∨ x = 1 := by
      rcases List.mem_cons.mp hx with rfl | hx'
      · exact Or.inl rfl
      · rcases List.mem_cons.mp hx' with rfl | hx''
        · exact Or.inr rfl
        · simp [knownQ] at hx''
    rcases this with rfl | rfl <;> norm_num
  have h := C6_step_no_peaks_amended 20
    { rsl_A := [some 0, some 1], rsl_B := [some 0, some 1], rain := [some 0, some 0] }
    hb hb
  exact ⟨hb, h.1, h.2.2.2.2⟩

/-- C6 counterexample: the two-sample series [0, 1] is far shorter than the
200-sample step kernel and its convolution never exceeds the threshold 20, so
the claim asserts that cml_suppress_step returns it unchanged; but the
function first min-max standardises the channel and then mean-centers the
single segment, returning [-1/2, 1/2] instead of [0, 1]. -/
theorem C6_cex_short_series_changed :
    (cml_suppress_step 20
      { rsl_A := [some 0, some 1], rsl_B := [some 0, some 1],
        rain := [some 0, some 0] }).rsl_A = [some (-(1/2)), some (1/2)] ∧
    ([some (0:ℚ), some 1].length < 200) := by
  refine ⟨?_, by decide⟩
  have hmm : minmaxCol [some (0:ℚ), some 1] = [some 0, some 1] := by
    norm_num [minmaxCol, minKnown, maxKnown, knownQ, List.filterMap_cons,
      List.filterMap_nil, id, max_def, min_def]
  have hb : ∀ o ∈ stepConvPadded (minmaxCol [some (0:ℚ), some 1]),
      ∀ c, o = some c → c ≤ 20 := by
    rw [hmm]
    refine stepConvPadded_le 20 [some 0, some 1] ?_ (by norm_num)
    intro x hx
    have : x = 0 ∨ x = 1 := by
      rcases List.mem_cons.mp hx with rfl | hx'
      · exact Or.inl rfl
      · rcases List.mem_cons.mp hx' with rfl | hx''
        · exact Or.inr rfl
        · simp [knownQ] at hx''
    rcases this with rfl | rfl <;> norm_num
  simp only [cml_suppress_step]
  rw [suppressStepChan_no_mask 20 [some 0, some 1] hb, hmm]
  norm_num [demeanRange, mapIdxD, meanK, knownQ, List.filterMap_cons, List.filterMap_nil,
    id, List.range_succ, List.getD]
  refine ⟨fun hfalse => ?_, fun hfalse => ?_⟩ <;> simp at hfalse

/-- ReLU nonlinearity (torch.nn.ReLU). -/
def reluQ (x : ℚ) : ℚ := max x 0

/-- Logistic squashing (torch.nn.Sigmoid); the only non-rational operation of
the classifier, valued in the reals. -/
noncomputable def sigmoid (x : ℚ) : ℝ := 1 / (1 + Real.exp (-(x : ℝ)))

/-- One-dimensional convolution with padding same and stride 1
(torch.nn.Conv1d(dim_in, dim_out, kernel_size, padding=same)): the input of
shape (channels, time) is zero-padded with (k-1)/2 slots on the left and the
rest of k-1 on the right (the right padding is implicit in the out-of-range
default of getD), and every output channel is its bias plus the sum over
input channels of the sliding dot product with its kernel slice.  The output
time length equals the input time length, read off the first channel. -/
def conv1dSame (k : ℕ) (w : List (List (List ℚ))) (b : List ℚ)
    (x : List (List ℚ)) : List (List ℚ) :=
  (w.zip b).map (fun wb =>
    (List.range ((x.headD []).length)).map (fun t =>
      wb.2 + ((wb.1.zip x).map (fun wx =>
        ((List.range k).map (fun j =>
          wx.1.getD j 0 * (List.replicate ((k - 1) / 2) (0 : ℚ) ++ wx.2).getD (t + j) 0)).sum)).sum))

/-- Convolutional block of cnn_telcorain (ConvBlock, lines 25-42): two
same-padded 1-D convolutions, holding its configured dimensions and the
weights and biases of its two projections. -/
structure ConvBlock where
  kernelsize : ℕ
  dim_in : ℕ
  dim : ℕ
  dim_out : ℕ
  proj1_w : List (List (List ℚ))
  proj1_b : List ℚ
  proj2_w : List (List (List ℚ))
  proj2_b : List ℚ

/-- ConvBlock.forward (lines 37-42): first convolution, ReLU, second
convolution, ReLU. -/
def ConvBlock.forward (cb : ConvBlock) (x : List (List ℚ)) : List (List ℚ) :=
  (conv1dSame cb.kernelsize cb.proj2_w cb.proj2_b
    ((conv1dSame cb.kernelsize cb.proj1_w cb.proj1_b x).map (fun c => c.map reluQ))).map
      (fun c => c.map reluQ)

/-- Shape invariant nn.Conv1d(din, dout, k) establishes for its weight and
bias tensors. -/
def conv1dWF (w : List (List (List ℚ))) (b : List ℚ) (dout din k : ℕ) : Prop :=
  w.length = dout ∧ b.length = dout ∧ ∀ row ∈ w, row.length = din ∧ ∀ wi ∈ row, wi.length = k

instance conv1dWF.decidable (w : List (List (List ℚ))) (b : List ℚ) (dout din k : ℕ) :
    Decidable (conv1dWF w b dout din k) := by
  unfold conv1dWF; infer_instance

/-- Shape invariant of a ConvBlock as its constructor builds it:
proj1 = Conv1d(dim_in, dim, k) and proj2 = Conv1d(dim, dim_out, k). -/
def ConvBlock.wf (cb : ConvBlock) : Prop :=
  conv1dWF cb.proj1_w cb.proj1_b cb.dim cb.dim_in cb.kernelsize ∧
  conv1dWF cb.proj2_w cb.proj2_b cb.dim_out cb.dim cb.kernelsize

instance ConvBlock.wf.decidable (cb : ConvBlock) : Decidable cb.wf := by
  unfold ConvBlock.wf; infer_instance

/-- Shape invariant nn.Linear(din, dout) establishes. -/
def linearWF (w : List (List ℚ)) (b : List ℚ) (dout din : ℕ) : Prop :=
  w.length = dout ∧ b.length = dout ∧ ∀ row ∈ w, row.length = din

instance linearWF.decidable (w : List (List ℚ)) (b : List ℚ) (dout din : ℕ) :
    Decidable (linearWF w b dout din) := by
  unfold linearWF; infer_instance

/-- The classifier cnn_class (cnn_telcorain_v11.py lines 44-70): configuration,
four convolutional blocks and three fully connected layers.  Dropout keeps
only its rate: in evaluation mode it is the identity, and the claims settled
here concern the deterministic forward pass. -/
structure cnn_class where
  channels : ℕ
  sample_size : ℕ
  kernelsize : ℕ
  dropout : ℚ
  n_fc_neurons : ℕ
  n_filters : List ℕ
  cb1 : ConvBlock
  cb2 : ConvBlock
  cb3 : ConvBlock
  cb4 : ConvBlock
  dense1_w : List (List ℚ)
  dense1_b : List ℚ
  dense2_w : List (List ℚ)
  dense2_b : List ℚ
  denseOut_w : List (List ℚ)
  denseOut_b : List ℚ

/-- Wiring invariant mirroring cnn_class.__init__ (lines 54-70): block 1
maps channels to n_filters[0] twice, block i maps n_filters[i-2] to
n_filters[i-1] to n_filters[i-1], dense1 = Linear(n_filters[3], n_fc_neurons),
dense2 = Linear(n_fc_neurons, n_fc_neurons), and
denseOut = Linear(n_fc_neurons, sample_size). -/
def cnn_class.wf (m : cnn_class) : Prop :=
  m.cb1.kernelsize = m.kernelsize ∧ m.cb1.dim_in = m.channels ∧
  m.cb1.dim = m.n_filters.getD 0 0 ∧ m.cb1.dim_out = m.n_filters.getD 0 0 ∧ m.cb1.wf ∧
  m.cb2.kernelsize = m.kernelsize ∧ m.cb2.dim_in = m.n_filters.getD 0 0 ∧
  m.cb2.dim = m.n_filters.getD 1 0 ∧ m.cb2.dim_out = m.n_filters.getD 1 0 ∧ m.cb2.wf ∧
  m.cb3.kernelsize = m.kernelsize ∧ m.cb3.dim_in = m.n_filters.getD 1 0 ∧
  m.cb3.dim = m.n_filters.getD 2 0 ∧ m.cb3.dim_out = m.n_filters.getD 2 0 ∧ m.cb3.wf ∧
  m.cb4.kernelsize = m.kernelsize ∧ m.cb4.dim_in = m.n_filters.getD 2 0 ∧
  m.cb4.dim = m.n_filters.getD 3 0 ∧ m.cb4.dim_out = m.n_filters.getD 3 0 ∧ m.cb4.wf ∧
  linearWF m.dense1_w m.dense1_b m.n_fc_neurons (m.n_filters.getD 3 0) ∧
  linearWF m.dense2_w m.dense2_b m.n_fc_neurons m.n_fc_neurons ∧
  linearWF m.denseOut_w m.denseOut_b m.sample_size m.n_fc_neurons

instance cnn_class.wf.decidable (m : cnn_class) : Decidable m.wf := by
  unfold cnn_class.wf; infer_instance

/-- Fully connected layer (torch.nn.Linear): w x + b per output neuron. -/
def linearF (w : List (List ℚ)) (b : List ℚ) (v : List ℚ) : List ℚ :=
  (w.zip b).map (fun rb => rb.2 + ((rb.1.zip v).map (fun p => p.1 * p.2)).sum)

/-- Forward pass of the classifier for one sample window of shape
(channels, sample_size) (cnn_class.forward, lines 73-88): the four blocks,
mean pooling over the time dimension (torch.mean(x, dim=-1)), two dense
layers with ReLU (dropout is the identity in evaluation mode; in training it
only rescales and masks values, changing no shape), and the output dense
layer under the sigmoid. -/
noncomputable def cnn_class.forward1 (m : cnn_class) (x : List (List ℚ)) : List ℝ :=
  let h := m.cb4.forward (m.cb3.forward (m.cb2.forward (m.cb1.forward x)))
  let v := h.map (fun c => c.sum / (c.length : ℚ))
  let v1 := (linearF m.dense1_w m.dense1_b v).map reluQ
  let v2 := (linearF m.dense2_w m.dense2_b v1).map reluQ
  (linearF m.denseOut_w m.denseOut_b v2).map sigmoid

/-- Batched forward pass: each sample of the batch dimension is processed
independently. -/
noncomputable def cnn_class.forward (m : cnn_class) (xb : List (List (List ℚ))) :
    List (List ℝ) :=
  xb.map m.forward1

theorem sigmoid_mem_unit (x : ℚ) : 0 ≤ sigmoid x ∧ sigmoid x ≤ 1 := by
  have hex : 0 < Real.exp (-(x : ℝ)) := Real.exp_pos _
  have hden : 0 < 1 + Real.exp (-(x : ℝ)) := by linarith
  constructor
  · rw [sigmoid]
    positivity
  · rw [sigmoid, div_le_one hden]
    linarith

theorem linearF_length (w : List (List ℚ)) (b : List ℚ) (v : List ℚ) :
    (linearF w b v).length = min w.length b.length := by
  simp [linearF]

theorem conv1dSame_shape (k : ℕ) (w : List (List (List ℚ))) (b : List ℚ)
    (x : List (List ℚ)) (dout din L : ℕ)
    (hwf : conv1dWF w b dout din k) (hx : x.length = din)
    (hxL : ∀ c ∈ x, c.length = L) (hdin : 0 < din) :
    (conv1dSame k w b x).length = dout ∧ ∀ c ∈ conv1dSame k w b x, c.length = L := by
  have hL : (x.headD []).length = L := by
    rcases x with _ | ⟨c, t⟩
    · rw [List.length_nil] at hx; omega
    · exact hxL c (List.mem_cons_self c t)
  constructor
  · rw [conv1dSame, List.length_map, List.length_zip, hwf.1, hwf.2.1, Nat.min_self]
  · intro c hc
    rcases List.mem_map.mp hc with ⟨wb, _, rfl⟩
    rw [List.length_map, List.length_range, hL]

theorem ConvBlock.forward_shape (cb : ConvBlock) (x : List (List ℚ)) (L : ℕ)
    (hwf : cb.wf) (hdin : 0 < cb.dim_in) (hdim : 0 < cb.dim)
    (hx : x.length = cb.dim_in) (hxL : ∀ c ∈ x, c.length = L) :
    (cb.forward x).length = cb.dim_out ∧ ∀ c ∈ cb.forward x, c.length = L := by
  have h1 := conv1dSame_shape cb.kernelsize cb.proj1_w cb.proj1_b x cb.dim cb.dim_in L
    hwf.1 hx hxL hdin
  have h1r : ((conv1dSame cb.kernelsize cb.proj1_w cb.proj1_b x).map
      (fun c => c.map reluQ)).length = cb.dim := by
    rw [List.length_map, h1.1]
  have h1rL : ∀ c ∈ (conv1dSame cb.kernelsize cb.proj1_w cb.proj1_b x).map
      (fun c => c.map reluQ), c.length = L := by
    intro c hc
    rcases List.mem_map.mp hc with ⟨c', hc', rfl⟩
    rw [List.length_map, h1.2 c' hc']
  have h2 := conv1dSame_shape cb.kernelsize cb.proj2_w cb.proj2_b
    ((conv1dSame cb.kernelsize cb.proj1_w cb.proj1_b x).map (fun c => c.map reluQ))
    cb.dim_out cb.dim L hwf.2 h1r h1rL hdim
  constructor
  · rw [ConvBlock.forward, List.length_map, h2.1]
  · intro c hc
    rcases List.mem_map.mp hc with ⟨c', hc', rfl⟩
    rw [List.length_map, h2.2 c' hc']

/-- C7: for every wellformed classifier configuration and parameters and
every batch of shape (N, channels, sample_size), the forward pass returns a
batch of shape (N, sample_size) and every output value lies in [0, 1]: the
batch dimension is mapped independently, the output length is the row count
of the wellformed output layer, and every value passes through the sigmoid,
whose range is (0, 1).  The shape hypothesis on the input records the
documented contract; the embedding is total, so the conclusion does not
depend on it. -/
theorem C7_forward_shape_range (m : cnn_class) (N : ℕ) (xb : List (List (List ℚ)))
    (hwf : m.wf) (hN : xb.length = N)
    (_hshape : ∀ s ∈ xb, s.length = m.channels ∧ ∀ c ∈ s, c.length = m.sample_size) :
    (m.forward xb).length = N ∧
    ∀ r ∈ m.forward xb, r.length = m.sample_size ∧ ∀ p ∈ r, 0 ≤ p ∧ p ≤ 1 := by
  obtain ⟨_, _, _, _, _, _, _, _, _, _, _, _, _, _, _, _, _, _, _, _, _, _, hOut⟩ := hwf
  constructor
  · rw [cnn_class.forward, List.length_map, hN]
  · intro r hr
    rcases List.mem_map.mp hr with ⟨s, _, rfl⟩
    constructor
    · rw [cnn_class.forward1, List.length_map, linearF_length, hOut.1, hOut.2.1,
        Nat.min_self]
    · intro p hp
      rcases List.mem_map.mp hp with ⟨q, _, rfl⟩
      exact sigmoid_mem_unit q

theorem C7_forward_shape_range_witness :
    (cnn_class.mk 1 1 1 0 1 [1, 1, 1, 1]
      ⟨1, 1, 1, 1, [[[0]]], [0], [[[0]]], [0]⟩ ⟨1, 1, 1, 1, [[[0]]], [0], [[[0]]], [0]⟩
      ⟨1, 1, 1, 1, [[[0]]], [0], [[[0]]], [0]⟩ ⟨1, 1, 1, 1, [[[0]]], [0], [[[0]]], [0]⟩
      [[0]] [0] [[0]] [0] [[0]] [0]).wf ∧
    (∀ s ∈ [[[(0 : ℚ)]]], s.length = 1 ∧ ∀ c ∈ s, c.length = 1) ∧
    ((cnn_class.mk 1 1 1 0 1 [1, 1, 1, 1]
      ⟨1, 1, 1, 1, [[[0]]], [0], [[[0]]], [0]⟩ ⟨1, 1, 1, 1, [[[0]]], [0], [[[0]]], [0]⟩
      ⟨1, 1, 1, 1, [[[0]]], [0], [[[0]]], [0]⟩ ⟨1, 1, 1, 1, [[[0]]], [0], [[[0]]], [0]⟩
      [[0]] [0] [[0]] [0] [[0]] [0]).forward [[[(0 : ℚ)]]]).length = 1 ∧
    ∀ r ∈ (cnn_class.mk 1 1 1 0 1 [1, 1, 1, 1]
      ⟨1, 1, 1, 1, [[[0]]], [0], [[[0]]], [0]⟩ ⟨1, 1, 1, 1, [[[0]]], [0], [[[0]]], [0]⟩
      ⟨1, 1, 1, 1, [[[0]]], [0], [[[0]]], [0]⟩ ⟨1, 1, 1, 1, [[[0]]], [0], [[[0]]], [0]⟩
      [[0]] [0] [[0]] [0] [[0]] [0]).forward [[[(0 : ℚ)]]],
      r.length = 1 ∧ ∀ p ∈ r, 0 ≤ p ∧ p ≤ 1 := by
  have h := C7_forward_shape_range
    (cnn_class.mk 1 1 1 0 1 [1, 1, 1, 1]
      ⟨1, 1, 1, 1, [[[0]]], [0], [[[0]]], [0]⟩ ⟨1, 1, 1, 1, [[[0]]], [0], [[[0]]], [0]⟩
      ⟨1, 1, 1, 1, [[[0]]], [0], [[[0]]], [0]⟩ ⟨1, 1, 1, 1, [[[0]]], [0], [[[0]]], [0]⟩
      [[0]] [0] [[0]] [0] [[0]] [0]) 1 [[[(0 : ℚ)]]] (by decide) rfl (by decide)
  exact ⟨by decide, by decide, h.1, h.2⟩

/-- C8: a wellformed classifier consists of exactly four convolutional blocks
wired so block 1 maps channels to n_filters[0] to n_filters[0] and block i
maps n_filters[i-2] to n_filters[i-1] to n_filters[i-1]; every block computes
two same-padded 1-D convolutions, the first followed by a ReLU nonlinearity
and the second followed by a ReLU nonlinearity; and on any wellshaped input
with positive channel counts each block preserves the temporal length while
mapping dim_in channels to dim_out channels. -/
theorem C8_conv_blocks (m : cnn_class) (hwf : m.wf) :
    (m.cb1.dim_in = m.channels ∧ m.cb1.dim = m.n_filters.getD 0 0 ∧
      m.cb1.dim_out = m.n_filters.getD 0 0) ∧
    (m.cb2.dim_in = m.n_filters.getD 0 0 ∧ m.cb2.dim = m.n_filters.getD 1 0 ∧
      m.cb2.dim_out = m.n_filters.getD 1 0) ∧
    (m.cb3.dim_in = m.n_filters.getD 1 0 ∧ m.cb3.dim = m.n_filters.getD 2 0 ∧
      m.cb3.dim_out = m.n_filters.getD 2 0) ∧
    (m.cb4.dim_in = m.n_filters.getD 2 0 ∧ m.cb4.dim = m.n_filters.getD 3 0 ∧
      m.cb4.dim_out = m.n_filters.getD 3 0) ∧
    (∀ cb : ConvBlock, ∀ x : List (List ℚ), cb.forward x =
      (conv1dSame cb.kernelsize cb.proj2_w cb.proj2_b
        ((conv1dSame cb.kernelsize cb.proj1_w cb.proj1_b x).map
          (fun c => c.map reluQ))).map (fun c => c.map reluQ)) ∧
    (∀ cb ∈ [m.cb1, m.cb2, m.cb3, m.cb4], ∀ (x : List (List ℚ)) (L : ℕ),
      0 < cb.dim_in → 0 < cb.dim → x.length = cb.dim_in → (∀ c ∈ x, c.length = L) →
      (cb.forward x).length = cb.dim_out ∧ ∀ c ∈ cb.forward x, c.length = L) := by
  obtain ⟨_, h1in, h1d, h1o, h1wf, _, h2in, h2d, h2o, h2wf, _, h3in, h3d, h3o, h3wf,
    _, h4in, h4d, h4o, h4wf, _, _, _⟩ := hwf
  refine ⟨⟨h1in, h1d, h1o⟩, ⟨h2in, h2d, h2o⟩, ⟨h3in, h3d, h3o⟩, ⟨h4in, h4d, h4o⟩,
    fun cb x => rfl, ?_⟩
  intro cb hcb x L hdin hdim hx hxL
  rcases List.mem_cons.mp hcb with rfl | hcb'
  · exact ConvBlock.forward_shape _ x L h1wf hdin hdim hx hxL
  rcases List.mem_cons.mp hcb' with rfl | hcb''
  · exact ConvBlock.forward_shape _ x L h2wf hdin hdim hx hxL
  rcases List.mem_cons.mp hcb'' with rfl | hcb3
  · exact ConvBlock.forward_shape _ x L h3wf hdin hdim hx hxL
  rcases List.mem_cons.mp hcb3 with rfl | hcb4
  · exact ConvBlock.forward_shape _ x L h4wf hdin hdim hx hxL
  · exact absurd hcb4 (List.not_mem_nil cb)

theorem C8_conv_blocks_witness :
    (cnn_class.mk 1 1 1 0 1 [1, 1, 1, 1]
      ⟨1, 1, 1, 1, [[[0]]], [0], [[[0]]], [0]⟩ ⟨1, 1, 1, 1, [[[0]]], [0], [[[0]]], [0]⟩
      ⟨1, 1, 1, 1, [[[0]]], [0], [[[0]]], [0]⟩ ⟨1, 1, 1, 1, [[[0]]], [0], [[[0]]], [0]⟩
      [[0]] [0] [[0]] [0] [[0]] [0]).wf ∧
    ((cnn_class.mk 1 1 1 0 1 [1, 1, 1, 1]
      ⟨1, 1, 1, 1, [[[0]]], [0], [[[0]]], [0]⟩ ⟨1, 1, 1, 1, [[[0]]], [0], [[[0]]], [0]⟩
      ⟨1, 1, 1, 1, [[[0]]], [0], [[[0]]], [0]⟩ ⟨1, 1, 1, 1, [[[0]]], [0], [[[0]]], [0]⟩
      [[0]] [0] [[0]] [0] [[0]] [0]).cb1.forward [[(0 : ℚ)]]).length = 1 ∧
    ∀ c ∈ (cnn_class.mk 1 1 1 0 1 [1, 1, 1, 1]
      ⟨1, 1, 1, 1, [[[0]]], [0], [[[0]]], [0]⟩ ⟨1, 1, 1, 1, [[[0]]], [0], [[[0]]], [0]⟩
      ⟨1, 1, 1, 1, [[[0]]], [0], [[[0]]], [0]⟩ ⟨1, 1, 1, 1, [[[0]]], [0], [[[0]]], [0]⟩
      [[0]] [0] [[0]] [0] [[0]] [0]).cb1.forward [[(0 : ℚ)]], c.length = 1 := by
  have h := (C8_conv_blocks
    (cnn_class.mk 1 1 1 0 1 [1, 1, 1, 1]
      ⟨1, 1, 1, 1, [[[0]]], [0], [[[0]]], [0]⟩ ⟨1, 1, 1, 1, [[[0]]], [0], [[[0]]], [0]⟩
      ⟨1, 1, 1, 1, [[[0]]], [0], [[[0]]], [0]⟩ ⟨1, 1, 1, 1, [[[0]]], [0], [[[0]]], [0]⟩
      [[0]] [0] [[0]] [0] [[0]] [0]) (by decide)).2.2.2.2.2
    _ (List.mem_cons_self _ _) [[(0 : ℚ)]] 1 (by decide) (by decide) (by decide) (by decide)
  exact ⟨by decide, h.1, h.2⟩
